import Mathlib

/-!
Verification of the ton-benchmark-analyzer decode-and-aggregate engine
(`src/web/app.js`), shallowly embedded in Lean 4.

Modelling conventions:
* JS numbers are modelled by `ℚ` (all arithmetic in the engine is exact on
  the rationals: sums, differences, divisions by counts, floors).
* A chart point `[t, v, blockId]` is a `Pt`; bucketed output points, which
  the source emits as two-element `[t, v]` arrays, carry `bid = none`.
* Block ids are modelled by `ℕ`; `blockSizeById` lookup tables by
  `ℕ → Option ℚ` (a missing JS object property is `none`).
* `Option` models JS `null`/`undefined`/absent fields; JS `x || d` string
  defaulting (which also replaces the empty string) is modelled explicitly.
* The wire-format field-order indirection (`record_fields`/`block_fields`/
  `size_fields` resolved through `indexMap`) is pure data plumbing and is
  collapsed: raw records and blocks are structures whose fields are the
  already-resolved tuple slots.
* `Array.prototype.sort` (stable in the target runtimes) is modelled by
  `List.mergeSort`, which is stable.
-/

namespace TonBench

/-- A series point: `[time, value, blockId]`.  Bucket-averaged points, which
the source emits without a block id, have `bid = none`. -/
structure Pt where
  t : ℚ
  v : ℚ
  bid : Option ℕ
deriving DecidableEq, Repr

/-- Comparator used by every `sort((a, b) => a[0] - b[0])` in the source. -/
def ptLe (a b : Pt) : Bool := decide (a.t ≤ b.t)

/-- Sort a point series ascending by time (`.sort((a, b) => a[0] - b[0])`). -/
def sortByT (l : List Pt) : List Pt := l.mergeSort ptLe

/-- Percentile estimator: translation of `percentile(values, p)`
(`src/web/app.js` lines 59-69).  Empty input returns 0; a one-element sorted
list returns its element; otherwise the floor/ceil-ranked elements of the
ascending sort are linearly interpolated at rank `pos = (p/100)*(n-1)`.
`List.getD` models JS array indexing (for `p ∈ [0,100]` the indices are in
bounds, so the default is never consulted). -/
def percentile (values : List ℚ) (p : ℚ) : ℚ :=
  if values = [] then 0
  else
    let sorted := values.mergeSort (fun a b => decide (a ≤ b))
    if sorted.length = 1 then sorted.headD 0
    else
      let pos : ℚ := (p / 100) * ((sorted.length : ℚ) - 1)
      let lower : ℤ := ⌊pos⌋
      let upper : ℤ := ⌈pos⌉
      if lower = upper then sorted.getD lower.toNat 0
      else
        let weight := pos - (lower : ℚ)
        sorted.getD lower.toNat 0 * (1 - weight) + sorted.getD upper.toNat 0 * weight

/- Helper lemmas about sorted lists. -/

theorem head_le_of_sortedBy {α : Type} (f : α → ℚ) {a : α} {l : List α}
    (hp : (a :: l).Pairwise (fun x y => f x ≤ f y)) :
    ∀ x ∈ a :: l, f a ≤ f x := by
  intro x hx
  rcases List.mem_cons.mp hx with h | h
  · exact h ▸ le_refl _
  · exact (List.pairwise_cons.mp hp).1 x h

theorem le_getLastD_of_sortedBy {α : Type} (f : α → ℚ) :
    ∀ {l : List α} {a : α},
      (a :: l).Pairwise (fun x y => f x ≤ f y) →
      ∀ x ∈ a :: l, f x ≤ f (l.getLastD a)
  | [], a, _, x, hx => by
      rcases List.mem_cons.mp hx with h | h
      · simp [h, List.getLastD]
      · simp at h
  | b :: tl, a, hp, x, hx => by
      have htail : (b :: tl).Pairwise (fun x y => f x ≤ f y) :=
        (List.pairwise_cons.mp hp).2
      have hrec := le_getLastD_of_sortedBy f htail
      rw [List.getLastD_cons]
      rcases List.mem_cons.mp hx with h | h
      · have hab : f a ≤ f b := (List.pairwise_cons.mp hp).1 b (by simp)
        have := hrec b (by simp)
        exact h ▸ le_trans hab this
      · exact hrec x h

theorem ratLe_trans : ∀ a b c : ℚ, decide (a ≤ b) → decide (b ≤ c) → decide (a ≤ c) := by
  intro a b c hab hbc
  simp only [decide_eq_true_eq] at *
  exact le_trans hab hbc

theorem ratLe_total : ∀ a b : ℚ, decide (a ≤ b) || decide (b ≤ a) := by
  intro a b
  simpa [Bool.or_eq_true, decide_eq_true_eq] using le_total a b

theorem sortedRat_of_mergeSort (l : List ℚ) :
    (l.mergeSort (fun a b => decide (a ≤ b))).Pairwise (fun a b : ℚ => a ≤ b) := by
  have := @List.sorted_mergeSort _ (fun a b : ℚ => decide (a ≤ b))
    ratLe_trans ratLe_total l
  exact this.imp (by intro a b h; exact of_decide_eq_true h)

/-- C4.  The percentile estimator's contract: empty input yields 0; a
singleton yields its element for every `p`; for `n ≥ 2` and `p ∈ [0,100]`
the result is the linear interpolation between the floor- and ceil-ranked
elements of the ascending sort at fractional rank `(p/100)*(n-1)`; and on
every non-empty input, `percentile values 0` is the minimum of `values` and
`percentile values 100` is the maximum. -/
theorem percentile_contract :
    (∀ p : ℚ, percentile [] p = 0)
    ∧ (∀ (x : ℚ) (p : ℚ), percentile [x] p = x)
    ∧ (∀ (values : List ℚ) (p : ℚ), 2 ≤ values.length → 0 ≤ p → p ≤ 100 →
        percentile values p =
          (let sorted := values.mergeSort (fun a b => decide (a ≤ b))
           let pos : ℚ := (p / 100) * ((sorted.length : ℚ) - 1)
           sorted.getD (⌊pos⌋).toNat 0 * (1 - (pos - (⌊pos⌋ : ℚ)))
             + sorted.getD (⌈pos⌉).toNat 0 * (pos - (⌊pos⌋ : ℚ))))
    ∧ (∀ values : List ℚ, values ≠ [] →
        percentile values 0 ∈ values ∧ ∀ x ∈ values, percentile values 0 ≤ x)
    ∧ (∀ values : List ℚ, values ≠ [] →
        percentile values 100 ∈ values ∧ ∀ x ∈ values, x ≤ percentile values 100) := by
  constructor
  · intro p; simp [percentile]
  constructor
  · intro x p; simp [percentile]
  constructor
  · intro values p hlen hp0 hp100
    have hne : values ≠ [] := by
      intro h; rw [h] at hlen; simp at hlen
    simp only [percentile, if_neg hne]
    set sorted := values.mergeSort (fun a b => decide (a ≤ b)) with hs
    have hslen : sorted.length = values.length := List.length_mergeSort ..
    have hlen1 : ¬ sorted.length = 1 := by omega
    simp only [if_neg hlen1]
    set pos : ℚ := (p / 100) * ((sorted.length : ℚ) - 1) with hpos
    by_cases hfl : (⌊pos⌋ : ℤ) = ⌈pos⌉
    · simp only [if_pos hfl]
      have hint : pos = (⌊pos⌋ : ℚ) := by
        have h1 : (⌊pos⌋ : ℚ) ≤ pos := Int.floor_le pos
        have h2 : pos ≤ (⌈pos⌉ : ℚ) := Int.le_ceil pos
        rw [← hfl] at h2
        linarith
      rw [← hint, ← hfl]
      ring
    · simp only [if_neg hfl]
  constructor
  · intro values hne
    simp only [percentile, if_neg hne]
    set sorted := values.mergeSort (fun a b => decide (a ≤ b)) with hs
    have hperm : sorted.Perm values := List.mergeSort_perm values _
    have hsorted : sorted.Pairwise (fun a b : ℚ => a ≤ b) := sortedRat_of_mergeSort values
    have hsne : sorted ≠ [] := by
      intro h; apply hne
      have := hperm.length_eq; rw [h] at this
      exact List.length_eq_zero.mp this.symm
    obtain ⟨b, tl, hbtl⟩ := List.exists_cons_of_ne_nil hsne
    have hheadmem : b ∈ values := hperm.mem_iff.mp (by rw [hbtl]; simp)
    have hheadmin : ∀ x ∈ values, b ≤ x := by
      intro x hx
      have hxs : x ∈ sorted := hperm.mem_iff.mpr hx
      rw [hbtl] at hxs
      rw [hbtl] at hsorted
      simpa using head_le_of_sortedBy id hsorted x hxs
    by_cases h1 : sorted.length = 1
    · simp only [if_pos h1]
      rw [hbtl]
      simpa using ⟨hheadmem, hheadmin⟩
    · simp only [if_neg h1]
      have hpos0 : ((0 : ℚ) / 100) * ((sorted.length : ℚ) - 1) = 0 := by ring
      simp only [hpos0]
      norm_num
      rw [hbtl]
      simpa using ⟨hheadmem, hheadmin⟩
  · intro values hne
    simp only [percentile, if_neg hne]
    set sorted := values.mergeSort (fun a b => decide (a ≤ b)) with hs
    have hperm : sorted.Perm values := List.mergeSort_perm values _
    have hsorted : sorted.Pairwise (fun a b : ℚ => a ≤ b) := sortedRat_of_mergeSort values
    have hsne : sorted ≠ [] := by
      intro h; apply hne
      have := hperm.length_eq; rw [h] at this
      exact List.length_eq_zero.mp this.symm
    obtain ⟨b, tl, hbtl⟩ := List.exists_cons_of_ne_nil hsne
    have hlastmem : tl.getLastD b ∈ values := by
      apply hperm.mem_iff.mp
      rw [hbtl]
      have : (b :: tl).getLast (by simp) ∈ b :: tl := List.getLast_mem _
      simpa [List.getLast_eq_getLastD] using this
    have hlastmax : ∀ x ∈ values, x ≤ tl.getLastD b := by
      intro x hx
      have hxs : x ∈ sorted := hperm.mem_iff.mpr hx
      rw [hbtl] at hxs
      rw [hbtl] at hsorted
      simpa using le_getLastD_of_sortedBy id hsorted x hxs
    by_cases h1 : sorted.length = 1
    · simp only [if_pos h1]
      rw [hbtl] at h1
      have htl : tl = [] := by
        have : tl.length = 0 := by simpa using h1
        exact List.length_eq_zero.mp this
      subst htl
      rw [hbtl]
      simp only [List.headD_cons]
      simp only [List.getLastD_nil] at hlastmem hlastmax
      exact ⟨hlastmem, hlastmax⟩
    · simp only [if_neg h1]
      have hlen2 : 2 ≤ sorted.length := by
        have : sorted.length ≠ 0 := by
          intro h; exact hsne (List.length_eq_zero.mp h)
        omega
      have hpos100 : ((100 : ℚ) / 100) * ((sorted.length : ℚ) - 1)
          = ((sorted.length - 1 : ℕ) : ℚ) := by
        push_cast [Nat.cast_sub (by omega : 1 ≤ sorted.length)]
        ring
      simp only [hpos100, Int.floor_natCast, Int.ceil_natCast, if_pos rfl, Int.toNat_natCast]
      have hget : sorted.getD (sorted.length - 1) 0 = tl.getLastD b := by
        conv_lhs => rw [hbtl]
        have hlast : (b :: tl).getLast (by simp) = tl.getLastD b := by
          simp [List.getLast_eq_getLastD]
        rw [← hlast]
        have hge := List.getLast_eq_getElem (l := b :: tl) (by simp)
        rw [hge]
        exact List.getD_eq_getElem (b :: tl) 0 (by simp)
      rw [hget]
      exact ⟨hlastmem, hlastmax⟩

/-- Witness for `percentile_contract`: evaluates each conjunct at concrete
inputs, including the spec's 66th-percentile test vector. -/
theorem percentile_contract_witness :
    percentile [] 7 = 0
    ∧ percentile [5] 250 = 5
    ∧ (percentile ([3, 1, 2] : List ℚ) 0 ∈ ([3, 1, 2] : List ℚ)
        ∧ ∀ x ∈ ([3, 1, 2] : List ℚ), percentile ([3, 1, 2] : List ℚ) 0 ≤ x)
    ∧ (percentile ([3, 1, 2] : List ℚ) 100 ∈ ([3, 1, 2] : List ℚ)
        ∧ ∀ x ∈ ([3, 1, 2] : List ℚ), x ≤ percentile ([3, 1, 2] : List ℚ) 100)
    ∧ percentile ([10, 15, 20] : List ℚ) 66 =
        (let sorted := ([10, 15, 20] : List ℚ).mergeSort (fun a b => decide (a ≤ b))
         let pos : ℚ := (66 / 100) * ((sorted.length : ℚ) - 1)
         sorted.getD (⌊pos⌋).toNat 0 * (1 - (pos - (⌊pos⌋ : ℚ)))
           + sorted.getD (⌈pos⌉).toNat 0 * (pos - (⌊pos⌋ : ℚ))) :=
  ⟨percentile_contract.1 7, percentile_contract.2.1 5 250,
   percentile_contract.2.2.2.1 [3, 1, 2] (by decide),
   percentile_contract.2.2.2.2 [3, 1, 2] (by decide),
   percentile_contract.2.2.1 [10, 15, 20] 66 (by decide) (by decide) (by decide)⟩

/-! ## Window/Filter Aggregator (`filterByBlockSize`, `aggregatePoints`) -/

/-- Global filter state read by the aggregator (`rangeMinT`, `rangeMaxT`,
`trimEdges`, `minBlockSizeBytes` in the source). -/
structure FilterState where
  rangeMinT : ℚ
  rangeMaxT : ℚ
  trimEdges : Bool
  minBlockSizeBytes : ℚ
deriving DecidableEq, Repr

/-- Translation of `filterByBlockSize(points, blockSizeById)` (lines
879-891).  Disabled (`minBlockSizeBytes ≤ 0`, covering the JS falsy `0`)
returns the points unchanged; otherwise only points whose block id resolves
to a size `≥ minBlockSizeBytes` survive (a point without a block id, or with
an id absent from the lookup, is dropped: `typeof undefined !== "number"`). -/
def filterByBlockSize (minSize : ℚ) (points : List Pt) (blockSizeById : ℕ → Option ℚ) :
    List Pt :=
  if minSize ≤ 0 then points
  else points.filter (fun p =>
    match p.bid.bind blockSizeById with
    | some size => decide (minSize ≤ size)
    | none => false)

/-- Bucketing step of `aggregatePoints` (lines 912-932): each kept point goes
to bucket `⌊t / windowSec⌋`; per non-empty bucket, in ascending bucket order,
one point is emitted whose coordinates are the arithmetic means of the
bucket's times and values.  The JS `Map` accumulation of `(sum, count, sumT)`
followed by a numeric key sort is modelled by filtering per key over the
sorted deduplicated key list; emitted points carry no block id. -/
def bucketize (windowSec : ℚ) (kept : List Pt) : List Pt :=
  let keys := ((kept.map (fun p => ⌊p.t / windowSec⌋)).dedup).mergeSort
    (fun a b => decide (a ≤ b))
  keys.map (fun k =>
    let grp := kept.filter (fun p => decide (⌊p.t / windowSec⌋ = k))
    { t := (grp.map Pt.t).sum / (grp.length : ℚ)
      v := (grp.map Pt.v).sum / (grp.length : ℚ)
      bid := none })

/-- First three steps of `aggregatePoints` (lines 893-900): size filter, sort
ascending by time, window filter. -/
def survivorsAfterWindow (st : FilterState) (sb : ℕ → Option ℚ) (points : List Pt) :
    List Pt :=
  (sortByT (filterByBlockSize st.minBlockSizeBytes points sb)).filter
    (fun p => decide (st.rangeMinT ≤ p.t ∧ p.t ≤ st.rangeMaxT))

/-- Lower bound `allowedMin` of the aggregator's edge trim (line 904): the
first surviving time, plus 300 s when trimming is on. -/
def allowedMinOf (trim : Bool) (p0 : Pt) : ℚ :=
  if trim then p0.t + 300 else p0.t

/-- Upper bound `allowedMax` of the aggregator's edge trim (line 905): the
last surviving time, minus 120 s when trimming is on. -/
def allowedMaxOf (trim : Bool) (p0 : Pt) (rest : List Pt) : ℚ :=
  if trim then (rest.getLastD p0).t - 120 else (rest.getLastD p0).t

/-- The window survivors `p0 :: rest` restricted to the allowed interval. -/
def keptOf (trim : Bool) (p0 : Pt) (rest : List Pt) : List Pt :=
  (p0 :: rest).filter
    (fun p => decide (allowedMinOf trim p0 ≤ p.t ∧ p.t ≤ allowedMaxOf trim p0 rest))

/-- Edge-trim and bucketing tail of `aggregatePoints` (lines 902-932), with
the non-empty window survivors `p0 :: rest` (sorted ascending by time) in
hand: an inverted allowed interval yields `[]`, a non-positive bucket width
returns the kept points unchanged, and a positive bucket width buckets
them. -/
def trimAndBucket (trim : Bool) (windowSec : ℚ) (p0 : Pt) (rest : List Pt) : List Pt :=
  if allowedMaxOf trim p0 rest < allowedMinOf trim p0 then []
  else if windowSec ≤ 0 then keptOf trim p0 rest
  else bucketize windowSec (keptOf trim p0 rest)

/-- Translation of `aggregatePoints(points, windowSec, blockSizeById)`
(lines 893-933).  The JS guard `!windowSec || windowSec <= 0` is
`windowSec ≤ 0` on numbers. -/
def aggregatePoints (st : FilterState) (windowSec : ℚ) (sb : ℕ → Option ℚ)
    (points : List Pt) : List Pt :=
  if points.isEmpty then []
  else if (filterByBlockSize st.minBlockSizeBytes points sb).isEmpty then []
  else
    match survivorsAfterWindow st sb points with
    | [] => []
    | p0 :: rest => trimAndBucket st.trimEdges windowSec p0 rest

theorem ptLe_trans : ∀ a b c : Pt, ptLe a b → ptLe b c → ptLe a c := by
  intro a b c hab hbc
  simp only [ptLe, decide_eq_true_eq] at *
  exact le_trans hab hbc

theorem ptLe_total : ∀ a b : Pt, ptLe a b || ptLe b a := by
  intro a b
  simpa [ptLe, Bool.or_eq_true, decide_eq_true_eq] using le_total a.t b.t

theorem sortByT_sorted (l : List Pt) :
    (sortByT l).Pairwise (fun a b : Pt => a.t ≤ b.t) := by
  have := @List.sorted_mergeSort _ ptLe ptLe_trans ptLe_total l
  exact this.imp (by intro a b h; exact of_decide_eq_true h)

theorem survivorsAfterWindow_sorted (st : FilterState) (sb : ℕ → Option ℚ)
    (points : List Pt) :
    (survivorsAfterWindow st sb points).Pairwise (fun a b : Pt => a.t ≤ b.t) :=
  (sortByT_sorted _).filter _

theorem survivorsAfterWindow_mem_window (st : FilterState) (sb : ℕ → Option ℚ)
    (points : List Pt) :
    ∀ p ∈ survivorsAfterWindow st sb points,
      st.rangeMinT ≤ p.t ∧ p.t ≤ st.rangeMaxT := by
  intro p hp
  have := List.of_mem_filter hp
  simpa using this

theorem filterByBlockSize_nil (minSize : ℚ) (sb : ℕ → Option ℚ) :
    filterByBlockSize minSize [] sb = [] := by
  unfold filterByBlockSize
  split <;> simp

/-- On a sorted non-empty list, filtering to `[head.t, last.t]` keeps
everything. -/
theorem filter_bounds_eq_self {p0 : Pt} {rest : List Pt}
    (hp : (p0 :: rest).Pairwise (fun a b : Pt => a.t ≤ b.t)) :
    (p0 :: rest).filter
      (fun p => decide (p0.t ≤ p.t ∧ p.t ≤ (rest.getLastD p0).t)) = p0 :: rest := by
  apply List.filter_eq_self.mpr
  intro a ha
  have h1 := head_le_of_sortedBy Pt.t hp a ha
  have h2 := le_getLastD_of_sortedBy Pt.t hp a ha
  simp only [decide_eq_true_eq]
  exact ⟨h1, h2⟩

theorem survivorsAfterWindow_of_nil (st : FilterState) (sb : ℕ → Option ℚ) :
    survivorsAfterWindow st sb [] = [] := by
  simp [survivorsAfterWindow, filterByBlockSize_nil, sortByT]

/-- When the window survivors are non-empty, the aggregator reduces to its
trim-and-bucket tail. -/
theorem aggregatePoints_eq_trimAndBucket (st : FilterState) (windowSec : ℚ)
    (sb : ℕ → Option ℚ) (points : List Pt) (p0 : Pt) (rest : List Pt)
    (hsurv : survivorsAfterWindow st sb points = p0 :: rest) :
    aggregatePoints st windowSec sb points = trimAndBucket st.trimEdges windowSec p0 rest := by
  have hpts : points.isEmpty = false := by
    cases hb : points.isEmpty
    · rfl
    · exfalso
      have hempty : points = [] := List.isEmpty_iff.mp hb
      rw [hempty, survivorsAfterWindow_of_nil] at hsurv
      exact List.cons_ne_nil _ _ hsurv.symm
  have hsf : (filterByBlockSize st.minBlockSizeBytes points sb).isEmpty = false := by
    cases hb : (filterByBlockSize st.minBlockSizeBytes points sb).isEmpty
    · rfl
    · exfalso
      have hempty : filterByBlockSize st.minBlockSizeBytes points sb = [] :=
        List.isEmpty_iff.mp hb
      rw [survivorsAfterWindow, hempty] at hsurv
      simp [sortByT] at hsurv
  unfold aggregatePoints
  rw [hpts, hsf, hsurv]
  simp

/-- C6.  Edge trimming: when at least one point survives the size and window
filters (so the survivors are `p0 :: rest`, sorted ascending by time, with
local minimum `p0.t` and local maximum `(rest.getLastD p0).t`), the
aggregator with bucketing disabled restricts the survivors to
`[local_min + 300, local_max - 120]` if `trimEdges` is set — returning `[]`
whenever that interval is empty — and returns all survivors unchanged if
`trimEdges` is unset. -/
theorem aggregatePoints_edgeTrim (st : FilterState) (windowSec : ℚ)
    (sb : ℕ → Option ℚ) (points : List Pt) (p0 : Pt) (rest : List Pt)
    (hw : windowSec ≤ 0)
    (hsurv : survivorsAfterWindow st sb points = p0 :: rest) :
    (st.trimEdges = true →
      aggregatePoints st windowSec sb points
        = (p0 :: rest).filter
            (fun p => decide (p0.t + 300 ≤ p.t ∧ p.t ≤ (rest.getLastD p0).t - 120))
      ∧ ((rest.getLastD p0).t - 120 < p0.t + 300 →
          aggregatePoints st windowSec sb points = []))
    ∧ (st.trimEdges = false →
        aggregatePoints st windowSec sb points = p0 :: rest) := by
  have hsorted : (p0 :: rest).Pairwise (fun a b : Pt => a.t ≤ b.t) :=
    hsurv ▸ survivorsAfterWindow_sorted st sb points
  have hagg := aggregatePoints_eq_trimAndBucket st windowSec sb points p0 rest hsurv
  constructor
  · intro htrim
    rw [htrim] at hagg
    have hmin : allowedMinOf true p0 = p0.t + 300 := by simp [allowedMinOf]
    have hmax : allowedMaxOf true p0 rest = (rest.getLastD p0).t - 120 := by
      simp [allowedMaxOf]
    have hkept : keptOf true p0 rest
        = (p0 :: rest).filter
            (fun p => decide (p0.t + 300 ≤ p.t ∧ p.t ≤ (rest.getLastD p0).t - 120)) := by
      simp only [keptOf, hmin, hmax]
    by_cases hinv : (rest.getLastD p0).t - 120 < p0.t + 300
    · have hz : aggregatePoints st windowSec sb points = [] := by
        rw [hagg]
        unfold trimAndBucket
        rw [hmax, hmin, if_pos hinv]
      refine ⟨?_, fun _ => hz⟩
      rw [hz]
      symm
      apply List.filter_eq_nil_iff.mpr
      intro a _
      simp only [decide_eq_true_eq, not_and]
      intro h1 h2
      linarith
    · constructor
      · rw [hagg]
        unfold trimAndBucket
        rw [hmax, hmin, if_neg hinv, if_pos hw]
        exact hkept
      · intro hempty
        exact absurd hempty hinv
  · intro htrim
    rw [htrim] at hagg
    have hmin : allowedMinOf false p0 = p0.t := by simp [allowedMinOf]
    have hmax : allowedMaxOf false p0 rest = (rest.getLastD p0).t := by
      simp [allowedMaxOf]
    have hnl : ¬ (rest.getLastD p0).t < p0.t := by
      exact not_lt.mpr (head_le_of_sortedBy Pt.t hsorted (rest.getLastD p0) (by
        have hm : (p0 :: rest).getLast (by simp) ∈ p0 :: rest := List.getLast_mem _
        simpa [List.getLast_eq_getLastD] using hm))
    have hkept : keptOf false p0 rest = p0 :: rest := by
      simp only [keptOf, hmin, hmax]
      exact filter_bounds_eq_self hsorted
    rw [hagg]
    unfold trimAndBucket
    rw [hmax, hmin, if_neg hnl, if_pos hw]
    exact hkept

/-- Witness for `aggregatePoints_edgeTrim`: a series spanning `[0, 1000]`
keeps exactly the points in `[300, 880]` with trimming on, and every point
with trimming off. -/
theorem aggregatePoints_edgeTrim_witness :
    aggregatePoints ⟨0, 1000, true, 0⟩ 0 (fun _ => none)
        [⟨0, 1, none⟩, ⟨300, 2, none⟩, ⟨880, 3, none⟩, ⟨1000, 4, none⟩]
      = [⟨300, 2, none⟩, ⟨880, 3, none⟩]
    ∧ aggregatePoints ⟨0, 1000, false, 0⟩ 0 (fun _ => none)
        [⟨0, 1, none⟩, ⟨300, 2, none⟩, ⟨880, 3, none⟩, ⟨1000, 4, none⟩]
      = [⟨0, 1, none⟩, ⟨300, 2, none⟩, ⟨880, 3, none⟩, ⟨1000, 4, none⟩] := by
  have hsort : sortByT [⟨0, 1, none⟩, ⟨300, 2, none⟩, ⟨880, 3, none⟩, ⟨1000, 4, none⟩]
      = [⟨0, 1, none⟩, ⟨300, 2, none⟩, ⟨880, 3, none⟩, ⟨1000, 4, none⟩] :=
    List.mergeSort_of_sorted (by decide)
  have hsurv1 : survivorsAfterWindow ⟨0, 1000, true, 0⟩ (fun _ => none)
      [⟨0, 1, none⟩, ⟨300, 2, none⟩, ⟨880, 3, none⟩, ⟨1000, 4, none⟩]
      = ⟨0, 1, none⟩ :: [⟨300, 2, none⟩, ⟨880, 3, none⟩, ⟨1000, 4, none⟩] := by
    rw [survivorsAfterWindow]
    rw [show filterByBlockSize (0 : ℚ)
        [⟨0, 1, none⟩, ⟨300, 2, none⟩, ⟨880, 3, none⟩, ⟨1000, 4, none⟩]
        (fun _ => none)
      = [⟨0, 1, none⟩, ⟨300, 2, none⟩, ⟨880, 3, none⟩, ⟨1000, 4, none⟩] by
        simp [filterByBlockSize]]
    rw [hsort]
    decide
  have hsurv2 : survivorsAfterWindow ⟨0, 1000, false, 0⟩ (fun _ => none)
      [⟨0, 1, none⟩, ⟨300, 2, none⟩, ⟨880, 3, none⟩, ⟨1000, 4, none⟩]
      = ⟨0, 1, none⟩ :: [⟨300, 2, none⟩, ⟨880, 3, none⟩, ⟨1000, 4, none⟩] := by
    rw [survivorsAfterWindow]
    rw [show filterByBlockSize (0 : ℚ)
        [⟨0, 1, none⟩, ⟨300, 2, none⟩, ⟨880, 3, none⟩, ⟨1000, 4, none⟩]
        (fun _ => none)
      = [⟨0, 1, none⟩, ⟨300, 2, none⟩, ⟨880, 3, none⟩, ⟨1000, 4, none⟩] by
        simp [filterByBlockSize]]
    rw [hsort]
    decide
  constructor
  · have h := ((aggregatePoints_edgeTrim ⟨0, 1000, true, 0⟩ 0 (fun _ => none)
      [⟨0, 1, none⟩, ⟨300, 2, none⟩, ⟨880, 3, none⟩, ⟨1000, 4, none⟩]
      ⟨0, 1, none⟩ [⟨300, 2, none⟩, ⟨880, 3, none⟩, ⟨1000, 4, none⟩]
      (by norm_num) hsurv1).1 rfl).1
    refine h.trans ?_
    norm_num [List.filter]
  · exact (aggregatePoints_edgeTrim ⟨0, 1000, false, 0⟩ 0 (fun _ => none)
      [⟨0, 1, none⟩, ⟨300, 2, none⟩, ⟨880, 3, none⟩, ⟨1000, 4, none⟩]
      ⟨0, 1, none⟩ [⟨300, 2, none⟩, ⟨880, 3, none⟩, ⟨1000, 4, none⟩]
      (by norm_num) hsurv2).2 rfl

theorem survivorsAfterWindow_subset (st : FilterState) (sb : ℕ → Option ℚ)
    (points : List Pt) : ∀ p ∈ survivorsAfterWindow st sb points, p ∈ points := by
  intro p hp
  have h1 : p ∈ sortByT (filterByBlockSize st.minBlockSizeBytes points sb) :=
    List.mem_of_mem_filter hp
  have h2 : p ∈ filterByBlockSize st.minBlockSizeBytes points sb := by
    rw [sortByT] at h1
    exact List.mem_mergeSort.mp h1
  unfold filterByBlockSize at h2
  split at h2
  · exact h2
  · exact List.mem_of_mem_filter h2

theorem aggregatePoints_cases (st : FilterState) (windowSec : ℚ)
    (sb : ℕ → Option ℚ) (points : List Pt) :
    aggregatePoints st windowSec sb points = []
    ∨ ∃ p0 rest, survivorsAfterWindow st sb points = p0 :: rest
        ∧ aggregatePoints st windowSec sb points
            = trimAndBucket st.trimEdges windowSec p0 rest := by
  cases hs : survivorsAfterWindow st sb points with
  | nil =>
    left
    unfold aggregatePoints
    rw [hs]
    split
    · rfl
    · split
      · rfl
      · rfl
  | cons p0 rest =>
    right
    exact ⟨p0, rest, rfl, aggregatePoints_eq_trimAndBucket st windowSec sb points p0 rest hs⟩

theorem trimAndBucket_mem_shape (trim : Bool) (w : ℚ) (p0 : Pt) (rest : List Pt) :
    (w ≤ 0 → ∀ p ∈ trimAndBucket trim w p0 rest, p ∈ p0 :: rest)
    ∧ (0 < w → ∀ p ∈ trimAndBucket trim w p0 rest, p.bid = none) := by
  unfold trimAndBucket
  constructor
  · intro hw p hp
    split at hp
    · simp at hp
    · simp only [keptOf] at hp
      exact List.mem_of_mem_filter hp
  · intro hw p hp
    split at hp
    · simp at hp
    · rw [if_neg (not_le.mpr hw)] at hp
      simp only [bucketize, List.mem_map] at hp
      obtain ⟨k, _, hk⟩ := hp
      rw [← hk]

/-- C10.  Output shape of the aggregator: with bucket width `≤ 0` every
output point is one of the input points (so `[t, v, blockId]` triples pass
through unchanged, block ids included); with a positive bucket width every
output point is a bucket average carrying no block id, and consequently a
subsequent size filter with any positive threshold and any lookup table
drops every bucketed point. -/
theorem aggregatePoints_shape (st : FilterState) (windowSec : ℚ)
    (sb : ℕ → Option ℚ) (points : List Pt) :
    (windowSec ≤ 0 → ∀ p ∈ aggregatePoints st windowSec sb points, p ∈ points)
    ∧ (0 < windowSec →
        (∀ p ∈ aggregatePoints st windowSec sb points, p.bid = none)
        ∧ ∀ (m : ℚ) (sb2 : ℕ → Option ℚ), 0 < m →
            filterByBlockSize m (aggregatePoints st windowSec sb points) sb2 = []) := by
  rcases aggregatePoints_cases st windowSec sb points with hnil | ⟨p0, rest, hsurv, heq⟩
  · constructor
    · intro _ p hp
      rw [hnil] at hp
      simp at hp
    · intro _
      constructor
      · intro p hp
        rw [hnil] at hp
        simp at hp
      · intro m sb2 hm
        rw [hnil, filterByBlockSize_nil]
  · have hbid : 0 < windowSec → ∀ p ∈ aggregatePoints st windowSec sb points, p.bid = none := by
      intro hw p hp
      rw [heq] at hp
      exact (trimAndBucket_mem_shape st.trimEdges windowSec p0 rest).2 hw p hp
    constructor
    · intro hw p hp
      rw [heq] at hp
      have hmem := (trimAndBucket_mem_shape st.trimEdges windowSec p0 rest).1 hw p hp
      rw [← hsurv] at hmem
      exact survivorsAfterWindow_subset st sb points p hmem
    · intro hw
      refine ⟨hbid hw, ?_⟩
      intro m sb2 hm
      unfold filterByBlockSize
      rw [if_neg (not_le.mpr hm)]
      apply List.filter_eq_nil_iff.mpr
      intro p hp
      rw [hbid hw p hp]
      simp

/-- Witness for `aggregatePoints_shape`: with bucket width 0 the output
points of a two-point series are input points; with bucket width 5 they all
lose their block id and a positive size filter empties the result. -/
theorem aggregatePoints_shape_witness :
    (∀ p ∈ aggregatePoints ⟨0, 100, false, 0⟩ 0 (fun _ => none)
        [⟨1, 10, some 7⟩, ⟨2, 20, some 8⟩], p ∈ [⟨1, 10, some 7⟩, ⟨2, 20, some 8⟩])
    ∧ (∀ p ∈ aggregatePoints ⟨0, 100, false, 0⟩ 5 (fun _ => none)
        [⟨1, 10, some 7⟩, ⟨2, 20, some 8⟩], p.bid = none)
    ∧ filterByBlockSize 1000
        (aggregatePoints ⟨0, 100, false, 0⟩ 5 (fun _ => none)
          [⟨1, 10, some 7⟩, ⟨2, 20, some 8⟩]) (fun _ => some 2000) = [] :=
  ⟨(aggregatePoints_shape ⟨0, 100, false, 0⟩ 0 (fun _ => none)
      [⟨1, 10, some 7⟩, ⟨2, 20, some 8⟩]).1 (by norm_num),
   ((aggregatePoints_shape ⟨0, 100, false, 0⟩ 5 (fun _ => none)
      [⟨1, 10, some 7⟩, ⟨2, 20, some 8⟩]).2 (by norm_num)).1,
   ((aggregatePoints_shape ⟨0, 100, false, 0⟩ 5 (fun _ => none)
      [⟨1, 10, some 7⟩, ⟨2, 20, some 8⟩]).2 (by norm_num)).2 1000 (fun _ => some 2000)
      (by norm_num)⟩

/-! Arithmetic-mean bounds, used to reason about bucket averages. -/

theorem list_sum_le_mul (b : ℚ) : ∀ (l : List ℚ), (∀ x ∈ l, x ≤ b) →
    l.sum ≤ (l.length : ℚ) * b
  | [], _ => by simp
  | x :: tl, h => by
    have h1 := h x (by simp)
    have h2 := list_sum_le_mul b tl (fun y hy => h y (by simp [hy]))
    simp only [List.sum_cons, List.length_cons]
    push_cast
    linarith

theorem list_mul_le_sum (a : ℚ) : ∀ (l : List ℚ), (∀ x ∈ l, a ≤ x) →
    (l.length : ℚ) * a ≤ l.sum
  | [], _ => by simp
  | x :: tl, h => by
    have h1 := h x (by simp)
    have h2 := list_mul_le_sum a tl (fun y hy => h y (by simp [hy]))
    simp only [List.sum_cons, List.length_cons]
    push_cast
    linarith

theorem list_sum_lt_mul (b : ℚ) : ∀ (l : List ℚ), l ≠ [] → (∀ x ∈ l, x < b) →
    l.sum < (l.length : ℚ) * b
  | [], h, _ => absurd rfl h
  | x :: tl, _, h => by
    have h1 := h x (by simp)
    have h2 := list_sum_le_mul b tl (fun y hy => le_of_lt (h y (by simp [hy])))
    simp only [List.sum_cons, List.length_cons]
    push_cast
    linarith

theorem mean_le (l : List ℚ) (b : ℚ) (hne : l ≠ []) (h : ∀ x ∈ l, x ≤ b) :
    l.sum / (l.length : ℚ) ≤ b := by
  have hlen : 0 < (l.length : ℚ) := by
    exact_mod_cast List.length_pos.mpr hne
  rw [div_le_iff₀ hlen]
  have := list_sum_le_mul b l h
  linarith

theorem le_mean (l : List ℚ) (a : ℚ) (hne : l ≠ []) (h : ∀ x ∈ l, a ≤ x) :
    a ≤ l.sum / (l.length : ℚ) := by
  have hlen : 0 < (l.length : ℚ) := by
    exact_mod_cast List.length_pos.mpr hne
  rw [le_div_iff₀ hlen]
  have := list_mul_le_sum a l h
  linarith

theorem mean_lt (l : List ℚ) (b : ℚ) (hne : l ≠ []) (h : ∀ x ∈ l, x < b) :
    l.sum / (l.length : ℚ) < b := by
  have hlen : 0 < (l.length : ℚ) := by
    exact_mod_cast List.length_pos.mpr hne
  rw [div_lt_iff₀ hlen]
  have := list_sum_lt_mul b l hne h
  linarith

/-! Floor-bucket arithmetic. -/

theorem floor_div_eq_iff {w t : ℚ} {k : ℤ} (hw : 0 < w) :
    ⌊t / w⌋ = k ↔ (k : ℚ) * w ≤ t ∧ t < ((k : ℚ) + 1) * w := by
  rw [Int.floor_eq_iff]
  constructor
  · rintro ⟨h1, h2⟩
    constructor
    · calc (k : ℚ) * w ≤ (t / w) * w := by
            exact mul_le_mul_of_nonneg_right h1 (le_of_lt hw)
        _ = t := div_mul_cancel₀ t (ne_of_gt hw)
    · have h3 : t / w < (k : ℚ) + 1 := by exact_mod_cast h2
      calc t = (t / w) * w := (div_mul_cancel₀ t (ne_of_gt hw)).symm
        _ < ((k : ℚ) + 1) * w := by
            exact mul_lt_mul_of_pos_right h3 hw
  · rintro ⟨h1, h2⟩
    constructor
    · rw [le_div_iff₀ hw]
      linarith
    · have : t / w < (k : ℚ) + 1 := by
        rw [div_lt_iff₀ hw]
        linarith
      exact_mod_cast this

theorem floor_lt_floor_imp {u v : ℚ} (h : ⌊u⌋ < ⌊v⌋) : u < v := by
  have h1 : u < (⌊u⌋ : ℚ) + 1 := Int.lt_floor_add_one u
  have h2 : ((⌊u⌋ : ℚ) + 1) ≤ (⌊v⌋ : ℚ) := by exact_mod_cast h
  have h3 : (⌊v⌋ : ℚ) ≤ v := Int.floor_le v
  linarith

theorem intLe_trans : ∀ a b c : ℤ, decide (a ≤ b) → decide (b ≤ c) → decide (a ≤ c) := by
  intro a b c hab hbc
  simp only [decide_eq_true_eq] at *
  omega

theorem intLe_total : ∀ a b : ℤ, decide (a ≤ b) || decide (b ≤ a) := by
  intro a b
  simp only [Bool.or_eq_true, decide_eq_true_eq]
  omega

theorem filter_eq_singleton_of_nodup_map {α β : Type} [DecidableEq β] (f : α → β) :
    ∀ {l : List α}, (l.map f).Nodup → ∀ x ∈ l,
      l.filter (fun y => decide (f y = f x)) = [x]
  | [], _, x, hx => absurd hx (by simp)
  | a :: tl, hnd, x, hx => by
    rw [List.map_cons, List.nodup_cons] at hnd
    obtain ⟨hfa, hndtl⟩ := hnd
    rcases List.mem_cons.mp hx with rfl | hxtl
    · rw [List.filter_cons, if_pos (by simp)]
      have htl : tl.filter (fun y => decide (f y = f x)) = [] := by
        apply List.filter_eq_nil_iff.mpr
        intro y hy
        simp only [decide_eq_true_eq]
        intro hfy
        exact hfa (hfy ▸ List.mem_map_of_mem f hy)
      rw [htl]
    · have hne : ¬ (f a = f x) := fun h => hfa (h ▸ List.mem_map_of_mem f hxtl)
      rw [List.filter_cons, if_neg (by simpa using hne)]
      exact filter_eq_singleton_of_nodup_map f hndtl x hxtl

theorem pairwise_lt_of_le_nodup {l : List ℤ} (hle : l.Pairwise (· ≤ ·))
    (hnd : l.Nodup) : l.Pairwise (· < ·) := by
  induction l with
  | nil => simp
  | cons a tl ih =>
    rw [List.pairwise_cons] at hle ⊢
    rw [List.nodup_cons] at hnd
    exact ⟨fun b hb => lt_of_le_of_ne (hle.1 b hb) (fun h => hnd.1 (h ▸ hb)),
      ih hle.2 hnd.2⟩

/-! Characterization of `bucketize`. -/

theorem bucketize_apply (w : ℚ) (kept : List Pt) :
    bucketize w kept = (((kept.map (fun p => ⌊p.t / w⌋)).dedup).mergeSort
      (fun a b => decide (a ≤ b))).map (fun k =>
        { t := ((kept.filter (fun p => decide (⌊p.t / w⌋ = k))).map Pt.t).sum
              / ((kept.filter (fun p => decide (⌊p.t / w⌋ = k))).length : ℚ)
          v := ((kept.filter (fun p => decide (⌊p.t / w⌋ = k))).map Pt.v).sum
              / ((kept.filter (fun p => decide (⌊p.t / w⌋ = k))).length : ℚ)
          bid := none }) := rfl

theorem bucket_grp_ne_nil (w : ℚ) (kept : List Pt) (k : ℤ)
    (hk : k ∈ (kept.map (fun p => ⌊p.t / w⌋)).dedup) :
    kept.filter (fun p => decide (⌊p.t / w⌋ = k)) ≠ [] := by
  have hmem : k ∈ kept.map (fun p => ⌊p.t / w⌋) := List.mem_dedup.mp hk
  obtain ⟨p, hp, hpk⟩ := List.mem_map.mp hmem
  intro hnil
  have hpf : p ∈ kept.filter (fun p => decide (⌊p.t / w⌋ = k)) :=
    List.mem_filter.mpr ⟨hp, by simp [hpk]⟩
  rw [hnil] at hpf
  simp at hpf

theorem bucket_point_key (w : ℚ) (hw : 0 < w) (kept : List Pt) (k : ℤ)
    (hk : k ∈ (kept.map (fun p => ⌊p.t / w⌋)).dedup) :
    ⌊(((kept.filter (fun p => decide (⌊p.t / w⌋ = k))).map Pt.t).sum
        / ((kept.filter (fun p => decide (⌊p.t / w⌋ = k))).length : ℚ)) / w⌋ = k := by
  have hgrp := bucket_grp_ne_nil w kept k hk
  have htne : (kept.filter (fun p => decide (⌊p.t / w⌋ = k))).map Pt.t ≠ [] := by
    intro h
    exact hgrp (List.map_eq_nil_iff.mp h)
  have hbound : ∀ x ∈ (kept.filter (fun p => decide (⌊p.t / w⌋ = k))).map Pt.t,
      (k : ℚ) * w ≤ x ∧ x < ((k : ℚ) + 1) * w := by
    intro x hx
    obtain ⟨p, hp, rfl⟩ := List.mem_map.mp hx
    have hpk : ⌊p.t / w⌋ = k := by
      have := List.of_mem_filter hp
      simpa using this
    exact (floor_div_eq_iff hw).mp hpk
  have hlenmap : ((kept.filter (fun p => decide (⌊p.t / w⌋ = k))).map Pt.t).length
      = (kept.filter (fun p => decide (⌊p.t / w⌋ = k))).length := List.length_map ..
  apply (floor_div_eq_iff hw).mpr
  constructor
  · have := le_mean _ ((k : ℚ) * w) htne (fun x hx => (hbound x hx).1)
    rwa [hlenmap] at this
  · have := mean_lt _ (((k : ℚ) + 1) * w) htne (fun x hx => (hbound x hx).2)
    rwa [hlenmap] at this

theorem bucketize_map_key (w : ℚ) (hw : 0 < w) (kept : List Pt) :
    (bucketize w kept).map (fun q => ⌊q.t / w⌋)
      = ((kept.map (fun p => ⌊p.t / w⌋)).dedup).mergeSort (fun a b => decide (a ≤ b)) := by
  rw [bucketize_apply, List.map_map]
  conv_rhs => rw [← List.map_id (((kept.map (fun p => ⌊p.t / w⌋)).dedup).mergeSort
    (fun a b => decide (a ≤ b)))]
  apply List.map_congr_left
  intro k hk
  have hk' : k ∈ (kept.map (fun p => ⌊p.t / w⌋)).dedup := List.mem_mergeSort.mp hk
  simpa using bucket_point_key w hw kept k hk'

theorem bucketize_keys_strict (w : ℚ) (hw : 0 < w) (kept : List Pt) :
    ((bucketize w kept).map (fun q => ⌊q.t / w⌋)).Pairwise (· < ·) := by
  rw [bucketize_map_key w hw kept]
  have hle : (((kept.map (fun p => ⌊p.t / w⌋)).dedup).mergeSort
      (fun a b => decide (a ≤ b))).Pairwise (fun a b : ℤ => a ≤ b) := by
    have := @List.sorted_mergeSort _ (fun a b : ℤ => decide (a ≤ b))
      intLe_trans intLe_total ((kept.map (fun p => ⌊p.t / w⌋)).dedup)
    exact this.imp (by intro a b h; exact of_decide_eq_true h)
  have hnd : (((kept.map (fun p => ⌊p.t / w⌋)).dedup).mergeSort
      (fun a b => decide (a ≤ b))).Nodup :=
    (List.mergeSort_perm _ _).nodup_iff.mpr (List.nodup_dedup _)
  exact pairwise_lt_of_le_nodup hle hnd

theorem bucketize_sorted (w : ℚ) (hw : 0 < w) (kept : List Pt) :
    (bucketize w kept).Pairwise (fun a b : Pt => a.t ≤ b.t) := by
  have h := bucketize_keys_strict w hw kept
  rw [List.pairwise_map] at h
  refine h.imp ?_
  intro a b hk
  have hdiv : a.t / w < b.t / w := floor_lt_floor_imp hk
  have : (a.t / w) * w < (b.t / w) * w := mul_lt_mul_of_pos_right hdiv hw
  rw [div_mul_cancel₀ a.t (ne_of_gt hw), div_mul_cancel₀ b.t (ne_of_gt hw)] at this
  exact le_of_lt this

theorem bucketize_bids (w : ℚ) (kept : List Pt) :
    ∀ q ∈ bucketize w kept, q.bid = none := by
  intro q hq
  simp only [bucketize, List.mem_map] at hq
  obtain ⟨k, _, hk⟩ := hq
  rw [← hk]

theorem bucketize_mem_bound (w : ℚ) (hw : 0 < w) (kept : List Pt) (lo hi : ℚ)
    (hb : ∀ p ∈ kept, lo ≤ p.t ∧ p.t ≤ hi) :
    ∀ q ∈ bucketize w kept, lo ≤ q.t ∧ q.t ≤ hi := by
  intro q hq
  rw [bucketize_apply] at hq
  obtain ⟨k, hk, rfl⟩ := List.mem_map.mp hq
  have hk' : k ∈ (kept.map (fun p => ⌊p.t / w⌋)).dedup := List.mem_mergeSort.mp hk
  have hgrp := bucket_grp_ne_nil w kept k hk'
  have htne : (kept.filter (fun p => decide (⌊p.t / w⌋ = k))).map Pt.t ≠ [] := by
    intro h
    exact hgrp (List.map_eq_nil_iff.mp h)
  have hbound : ∀ x ∈ (kept.filter (fun p => decide (⌊p.t / w⌋ = k))).map Pt.t,
      lo ≤ x ∧ x ≤ hi := by
    intro x hx
    obtain ⟨p, hp, rfl⟩ := List.mem_map.mp hx
    exact hb p (List.mem_of_mem_filter hp)
  have hlenmap : ((kept.filter (fun p => decide (⌊p.t / w⌋ = k))).map Pt.t).length
      = (kept.filter (fun p => decide (⌊p.t / w⌋ = k))).length := List.length_map ..
  constructor
  · have := le_mean _ lo htne (fun x hx => (hbound x hx).1)
    rw [hlenmap] at this
    exact this
  · have := mean_le _ hi htne (fun x hx => (hbound x hx).2)
    rw [hlenmap] at this
    exact this

theorem bucketize_of_singletons (w : ℚ) (hw : 0 < w) (l : List Pt)
    (hkeys : (l.map (fun p => ⌊p.t / w⌋)).Pairwise (· < ·))
    (hbid : ∀ p ∈ l, p.bid = none) :
    bucketize w l = l := by
  have hnodup : (l.map (fun p => ⌊p.t / w⌋)).Nodup :=
    hkeys.imp (fun h => ne_of_lt h)
  rw [bucketize_apply]
  rw [List.dedup_eq_self.mpr hnodup]
  rw [List.mergeSort_of_sorted (hkeys.imp (fun h => decide_eq_true (le_of_lt h)))]
  rw [List.map_map]
  conv_rhs => rw [← List.map_id l]
  apply List.map_congr_left
  intro p hp
  have hb := hbid p hp
  have hfilter := filter_eq_singleton_of_nodup_map (fun q : Pt => ⌊q.t / w⌋) hnodup p hp
  simp only [Function.comp_apply, id_eq]
  rw [hfilter]
  rcases p with ⟨pt, pv, pb⟩
  simp only at hb
  simp [hb, List.sum_cons]

/-! Further aggregator lemmas, toward idempotence. -/

theorem aggregatePoints_nil (st : FilterState) (windowSec : ℚ) (sb : ℕ → Option ℚ) :
    aggregatePoints st windowSec sb [] = [] := rfl

theorem sortByT_of_sorted {l : List Pt} (h : l.Pairwise (fun a b : Pt => a.t ≤ b.t)) :
    sortByT l = l :=
  List.mergeSort_of_sorted (h.imp (fun hab => decide_eq_true hab))

theorem filterByBlockSize_of_nonpos {m : ℚ} (hm : m ≤ 0) (pts : List Pt)
    (sb : ℕ → Option ℚ) : filterByBlockSize m pts sb = pts := by
  unfold filterByBlockSize
  rw [if_pos hm]

theorem filterByBlockSize_pred {m : ℚ} (hm : ¬ m ≤ 0) {p : Pt} {pts : List Pt}
    {sb : ℕ → Option ℚ} (hp : p ∈ filterByBlockSize m pts sb) :
    (match p.bid.bind sb with
      | some size => decide (m ≤ size)
      | none => false) = true := by
  unfold filterByBlockSize at hp
  rw [if_neg hm] at hp
  exact (List.mem_filter.mp hp).2

theorem filterByBlockSize_eq_self_of {m : ℚ} {sb : ℕ → Option ℚ} {l : List Pt}
    (h : ∀ p ∈ l, (match p.bid.bind sb with
      | some size => decide (m ≤ size)
      | none => false) = true) :
    filterByBlockSize m l sb = l := by
  unfold filterByBlockSize
  split
  · rfl
  · exact List.filter_eq_self.mpr h

theorem survivors_mem_sizeFiltered {st : FilterState} {sb : ℕ → Option ℚ}
    {points : List Pt} {p : Pt} (hp : p ∈ survivorsAfterWindow st sb points) :
    p ∈ filterByBlockSize st.minBlockSizeBytes points sb := by
  have h1 : p ∈ sortByT (filterByBlockSize st.minBlockSizeBytes points sb) :=
    List.mem_of_mem_filter hp
  rw [sortByT] at h1
  exact List.mem_mergeSort.mp h1

theorem head_le_getLastD {p0 : Pt} {rest : List Pt}
    (hsorted : (p0 :: rest).Pairwise (fun a b : Pt => a.t ≤ b.t)) :
    p0.t ≤ (rest.getLastD p0).t := by
  apply head_le_of_sortedBy Pt.t hsorted
  have hm : (p0 :: rest).getLast (by simp) ∈ p0 :: rest := List.getLast_mem _
  simpa [List.getLast_eq_getLastD] using hm

theorem trimAndBucket_false (windowSec : ℚ) (p0 : Pt) (rest : List Pt)
    (hsorted : (p0 :: rest).Pairwise (fun a b : Pt => a.t ≤ b.t)) :
    trimAndBucket false windowSec p0 rest
      = if windowSec ≤ 0 then p0 :: rest else bucketize windowSec (p0 :: rest) := by
  have hmin : allowedMinOf false p0 = p0.t := by simp [allowedMinOf]
  have hmax : allowedMaxOf false p0 rest = (rest.getLastD p0).t := by simp [allowedMaxOf]
  have hkept : keptOf false p0 rest = p0 :: rest := by
    simp only [keptOf, hmin, hmax]
    exact filter_bounds_eq_self hsorted
  unfold trimAndBucket
  rw [hmax, hmin, if_neg (not_lt.mpr (head_le_getLastD hsorted))]
  by_cases hw : windowSec ≤ 0
  · rw [if_pos hw, if_pos hw, hkept]
  · rw [if_neg hw, if_neg hw, hkept]

theorem window_filter_eq_self {st : FilterState} {l : List Pt}
    (h : ∀ p ∈ l, st.rangeMinT ≤ p.t ∧ p.t ≤ st.rangeMaxT) :
    l.filter (fun p => decide (st.rangeMinT ≤ p.t ∧ p.t ≤ st.rangeMaxT)) = l :=
  List.filter_eq_self.mpr (fun p hp => decide_eq_true (h p hp))

theorem survivorsAfterWindow_eq_self {st : FilterState} {sb : ℕ → Option ℚ}
    {l : List Pt} (hsorted : l.Pairwise (fun a b : Pt => a.t ≤ b.t))
    (hwin : ∀ p ∈ l, st.rangeMinT ≤ p.t ∧ p.t ≤ st.rangeMaxT)
    (hsf : filterByBlockSize st.minBlockSizeBytes l sb = l) :
    survivorsAfterWindow st sb l = l := by
  rw [survivorsAfterWindow, hsf, sortByT_of_sorted hsorted]
  exact window_filter_eq_self hwin

/-- C2 (amended).  The window/filter aggregation is idempotent when edge
trimming is disabled and, whenever bucketing is enabled (positive bucket
width), the size threshold is disabled: re-applying `aggregatePoints` with
the same filter state to its own output returns the output unchanged.
(With edge trimming on, or with a positive size threshold combined with
bucketing, a second application can differ — see the counterexample.) -/
theorem aggregatePoints_idempotent (st : FilterState) (windowSec : ℚ)
    (sb : ℕ → Option ℚ) (points : List Pt)
    (htrim : st.trimEdges = false)
    (hmw : st.minBlockSizeBytes ≤ 0 ∨ windowSec ≤ 0) :
    aggregatePoints st windowSec sb (aggregatePoints st windowSec sb points)
      = aggregatePoints st windowSec sb points := by
  rcases aggregatePoints_cases st windowSec sb points with hnil | ⟨p0, rest, hsurv, heq⟩
  · rw [hnil, aggregatePoints_nil]
  · have hsorted_surv : (p0 :: rest).Pairwise (fun a b : Pt => a.t ≤ b.t) :=
      hsurv ▸ survivorsAfterWindow_sorted st sb points
    have hwin_surv : ∀ p ∈ p0 :: rest, st.rangeMinT ≤ p.t ∧ p.t ≤ st.rangeMaxT := by
      intro p hp
      apply survivorsAfterWindow_mem_window st sb points p
      rw [hsurv]
      exact hp
    rw [htrim, trimAndBucket_false windowSec p0 rest hsorted_surv] at heq
    by_cases hw : windowSec ≤ 0
    · rw [if_pos hw] at heq
      have hsf2 : filterByBlockSize st.minBlockSizeBytes (p0 :: rest) sb = p0 :: rest := by
        by_cases hm : st.minBlockSizeBytes ≤ 0
        · exact filterByBlockSize_of_nonpos hm _ _
        · apply filterByBlockSize_eq_self_of
          intro p hp
          apply filterByBlockSize_pred hm
          apply @survivors_mem_sizeFiltered st sb points
          rw [hsurv]
          exact hp
      have hsurv2 : survivorsAfterWindow st sb (p0 :: rest) = p0 :: rest :=
        survivorsAfterWindow_eq_self hsorted_surv hwin_surv hsf2
      rw [heq]
      rw [aggregatePoints_eq_trimAndBucket st windowSec sb (p0 :: rest) p0 rest hsurv2, htrim]
      rw [trimAndBucket_false windowSec p0 rest hsorted_surv, if_pos hw]
    · rw [if_neg hw] at heq
      have hwpos : 0 < windowSec := not_le.mp hw
      have hm : st.minBlockSizeBytes ≤ 0 := hmw.resolve_right hw
      have hsorted_out := bucketize_sorted windowSec hwpos (p0 :: rest)
      have hwin_out := bucketize_mem_bound windowSec hwpos (p0 :: rest)
        st.rangeMinT st.rangeMaxT hwin_surv
      have hkeys_out := bucketize_keys_strict windowSec hwpos (p0 :: rest)
      have hbids_out := bucketize_bids windowSec (p0 :: rest)
      rw [heq]
      cases hoc : bucketize windowSec (p0 :: rest) with
      | nil => rw [aggregatePoints_nil]
      | cons q0 qrest =>
        rw [hoc] at hsorted_out hwin_out hkeys_out hbids_out
        have hsf2 : filterByBlockSize st.minBlockSizeBytes (q0 :: qrest) sb = q0 :: qrest :=
          filterByBlockSize_of_nonpos hm _ _
        have hsurv2 : survivorsAfterWindow st sb (q0 :: qrest) = q0 :: qrest :=
          survivorsAfterWindow_eq_self hsorted_out hwin_out hsf2
        rw [aggregatePoints_eq_trimAndBucket st windowSec sb (q0 :: qrest) q0 qrest hsurv2,
          htrim]
        rw [trimAndBucket_false windowSec q0 qrest hsorted_out, if_neg hw]
        exact bucketize_of_singletons windowSec hwpos (q0 :: qrest) hkeys_out hbids_out

theorem bucketize_ne_nil (w : ℚ) {kept : List Pt} (h : kept ≠ []) :
    bucketize w kept ≠ [] := by
  rw [bucketize_apply]
  intro hmap
  have hms := List.map_eq_nil_iff.mp hmap
  have hlen := congrArg List.length hms
  rw [List.length_mergeSort] at hlen
  have hdd : (kept.map (fun p => ⌊p.t / w⌋)).dedup = [] := by
    have := List.length_eq_zero.mp hlen
    exact this
  have : kept.map (fun p => ⌊p.t / w⌋) = [] := by
    rcases kept with _ | ⟨a, tl⟩
    · simp
    · exfalso
      have hmem : ⌊a.t / w⌋ ∈ ((a :: tl).map (fun p => ⌊p.t / w⌋)).dedup := by
        rw [List.mem_dedup]
        simp
      rw [hdd] at hmem
      simp at hmem
  exact h (List.map_eq_nil_iff.mp this)

/-- Counterexample to C2 as frozen.  Both failure modes of literal
idempotence are exhibited.  First: with edge trimming on (window wide enough
to contain everything, size filter and bucketing off), re-aggregating the
output trims another `[+300, -120]` interval off the surviving span and
loses points.  Second: with a positive size threshold and bucketing on
(trimming off), the bucketed output carries no block ids, so the second
pass's size filter drops every point. -/
theorem aggregatePoints_idempotent_counterexample :
    aggregatePoints ⟨0, 1000000, true, 0⟩ 0 (fun _ => none)
        (aggregatePoints ⟨0, 1000000, true, 0⟩ 0 (fun _ => none)
          [⟨0, 1, none⟩, ⟨500, 2, none⟩, ⟨1000, 3, none⟩])
      ≠ aggregatePoints ⟨0, 1000000, true, 0⟩ 0 (fun _ => none)
          [⟨0, 1, none⟩, ⟨500, 2, none⟩, ⟨1000, 3, none⟩]
    ∧ aggregatePoints ⟨0, 100, false, 1000⟩ 10 (fun _ => some 2000)
        (aggregatePoints ⟨0, 100, false, 1000⟩ 10 (fun _ => some 2000)
          [⟨1, 5, some 1⟩, ⟨2, 7, some 2⟩])
      ≠ aggregatePoints ⟨0, 100, false, 1000⟩ 10 (fun _ => some 2000)
          [⟨1, 5, some 1⟩, ⟨2, 7, some 2⟩] := by
  constructor
  · have hsurvA : survivorsAfterWindow ⟨0, 1000000, true, 0⟩ (fun _ => none)
        [⟨0, 1, none⟩, ⟨500, 2, none⟩, ⟨1000, 3, none⟩]
        = ⟨0, 1, none⟩ :: [⟨500, 2, none⟩, ⟨1000, 3, none⟩] := by
      rw [survivorsAfterWindow, filterByBlockSize_of_nonpos (le_refl 0),
        sortByT_of_sorted (by decide)]
      decide
    have hfirstA : aggregatePoints ⟨0, 1000000, true, 0⟩ 0 (fun _ => none)
        [⟨0, 1, none⟩, ⟨500, 2, none⟩, ⟨1000, 3, none⟩] = [⟨500, 2, none⟩] := by
      rw [aggregatePoints_eq_trimAndBucket _ _ _ _ _ _ hsurvA]
      unfold trimAndBucket
      rw [show allowedMaxOf (⟨0, 1000000, true, 0⟩ : FilterState).trimEdges
          ⟨0, 1, none⟩ [⟨500, 2, none⟩, ⟨1000, 3, none⟩] = 880 by
        norm_num [allowedMaxOf, List.getLastD_cons]]
      rw [show allowedMinOf (⟨0, 1000000, true, 0⟩ : FilterState).trimEdges
          ⟨0, 1, none⟩ = 300 by norm_num [allowedMinOf]]
      rw [if_neg (by norm_num : ¬ (880 : ℚ) < 300), if_pos (le_refl (0 : ℚ))]
      simp only [keptOf, allowedMinOf, allowedMaxOf]
      norm_num [List.filter, List.getLastD_cons]
    have hsurvA2 : survivorsAfterWindow ⟨0, 1000000, true, 0⟩ (fun _ => none)
        [⟨500, 2, none⟩] = ⟨500, 2, none⟩ :: [] := by
      rw [survivorsAfterWindow, filterByBlockSize_of_nonpos (le_refl 0),
        sortByT_of_sorted (by decide)]
      decide
    have hsecondA : aggregatePoints ⟨0, 1000000, true, 0⟩ 0 (fun _ => none)
        [⟨500, 2, none⟩] = [] := by
      rw [aggregatePoints_eq_trimAndBucket _ _ _ _ _ _ hsurvA2]
      unfold trimAndBucket
      rw [show allowedMaxOf (⟨0, 1000000, true, 0⟩ : FilterState).trimEdges
          ⟨500, 2, none⟩ ([] : List Pt) = 380 by norm_num [allowedMaxOf, List.getLastD]]
      rw [show allowedMinOf (⟨0, 1000000, true, 0⟩ : FilterState).trimEdges
          ⟨500, 2, none⟩ = 800 by norm_num [allowedMinOf]]
      rw [if_pos (by norm_num : (380 : ℚ) < 800)]
    rw [hfirstA, hsecondA]
    simp
  · have hsfB : filterByBlockSize (⟨0, 100, false, 1000⟩ : FilterState).minBlockSizeBytes
        [⟨1, 5, some 1⟩, ⟨2, 7, some 2⟩] (fun _ => some 2000)
        = [⟨1, 5, some 1⟩, ⟨2, 7, some 2⟩] := by
      apply filterByBlockSize_eq_self_of
      intro p hp
      fin_cases hp <;> decide
    have hsurvB : survivorsAfterWindow ⟨0, 100, false, 1000⟩ (fun _ => some 2000)
        [⟨1, 5, some 1⟩, ⟨2, 7, some 2⟩]
        = ⟨1, 5, some 1⟩ :: [⟨2, 7, some 2⟩] := by
      rw [survivorsAfterWindow, hsfB, sortByT_of_sorted (by decide)]
      decide
    have heqB : aggregatePoints ⟨0, 100, false, 1000⟩ 10 (fun _ => some 2000)
        [⟨1, 5, some 1⟩, ⟨2, 7, some 2⟩]
        = bucketize 10 (⟨1, 5, some 1⟩ :: [⟨2, 7, some 2⟩]) := by
      rw [aggregatePoints_eq_trimAndBucket _ _ _ _ _ _ hsurvB]
      rw [trimAndBucket_false 10 _ _ (by decide), if_neg (by norm_num)]
    have hneB : aggregatePoints ⟨0, 100, false, 1000⟩ 10 (fun _ => some 2000)
        [⟨1, 5, some 1⟩, ⟨2, 7, some 2⟩] ≠ [] := by
      rw [heqB]
      exact bucketize_ne_nil 10 (by simp)
    have hbidsB : ∀ q ∈ aggregatePoints ⟨0, 100, false, 1000⟩ 10 (fun _ => some 2000)
        [⟨1, 5, some 1⟩, ⟨2, 7, some 2⟩], q.bid = none := by
      rw [heqB]
      exact bucketize_bids 10 _
    have hkillB : filterByBlockSize (⟨0, 100, false, 1000⟩ : FilterState).minBlockSizeBytes
        (aggregatePoints ⟨0, 100, false, 1000⟩ 10 (fun _ => some 2000)
          [⟨1, 5, some 1⟩, ⟨2, 7, some 2⟩]) (fun _ => some 2000) = [] := by
      unfold filterByBlockSize
      rw [if_neg (by norm_num : ¬ (⟨0, 100, false, 1000⟩ : FilterState).minBlockSizeBytes ≤ 0)]
      apply List.filter_eq_nil_iff.mpr
      intro p hp
      rw [hbidsB p hp]
      simp
    have hsecondB : aggregatePoints ⟨0, 100, false, 1000⟩ 10 (fun _ => some 2000)
        (aggregatePoints ⟨0, 100, false, 1000⟩ 10 (fun _ => some 2000)
          [⟨1, 5, some 1⟩, ⟨2, 7, some 2⟩]) = [] := by
      have hoc : (aggregatePoints ⟨0, 100, false, 1000⟩ 10 (fun _ => some 2000)
          [⟨1, 5, some 1⟩, ⟨2, 7, some 2⟩]).isEmpty = false := by
        cases hb : (aggregatePoints ⟨0, 100, false, 1000⟩ 10 (fun _ => some 2000)
            [⟨1, 5, some 1⟩, ⟨2, 7, some 2⟩]).isEmpty
        · rfl
        · exact absurd (List.isEmpty_iff.mp hb) hneB
      generalize hgen : aggregatePoints ⟨0, 100, false, 1000⟩ 10 (fun _ => some 2000)
          [⟨1, 5, some 1⟩, ⟨2, 7, some 2⟩] = out at hoc hkillB ⊢
      unfold aggregatePoints
      rw [hoc, hkillB]
      simp
    rw [hsecondB]
    exact (Ne.symm hneB)

/-- Witness for `aggregatePoints_idempotent`: idempotence at a concrete
state with trimming off, size filter off, and bucket width 10. -/
theorem aggregatePoints_idempotent_witness :
    aggregatePoints ⟨0, 100, false, 0⟩ 10 (fun _ => none)
        (aggregatePoints ⟨0, 100, false, 0⟩ 10 (fun _ => none)
          [⟨1, 5, none⟩, ⟨2, 7, none⟩])
      = aggregatePoints ⟨0, 100, false, 0⟩ 10 (fun _ => none)
          [⟨1, 5, none⟩, ⟨2, 7, none⟩] :=
  aggregatePoints_idempotent ⟨0, 100, false, 0⟩ 10 (fun _ => none)
    [⟨1, 5, none⟩, ⟨2, 7, none⟩] rfl (Or.inl (by norm_num))

/-! ## Payload Decoder and Block Grouper (`computeStatsFromCompressed`) -/

/-- One wire-format record, with the field-order indirection already
resolved (the source reads tuple slots through `recIdx`; absent slots are
`none`).  The node index, used only by the drill-down view, is omitted. -/
structure RawRecord where
  start_us : Option ℚ
  duration_us : Option ℚ
  stage_idx : Option ℕ
  type_idx : Option ℕ
  called_from_idx : Option ℕ
  size_idx : Option ℕ
deriving DecidableEq, Repr

/-- One wire-format block entry: `[block_id, size_map, records]`.  A missing
`size_map`/`records` slot (`|| []` in the source) is modelled as the empty
list; block ids are modelled as naturals. -/
structure RawBlock where
  block_id : ℕ
  size_map : List (Option ℚ × Option ℚ)
  records : List RawRecord
deriving DecidableEq, Repr

/-- A raw payload.  `ts0` holds the parsed `Date.parse(payload.ts0)` value
in milliseconds; `none` covers a missing/empty `ts0` as well as an
unparseable one (`NaN`).  `blocks = none` models a non-array `blocks`.
`maps.stage/type/called_from` default to `[]` when absent, as in the
source. -/
structure Payload where
  experiment_name : Option String
  ts0 : Option ℚ
  stage_map : List String
  type_map : List String
  called_from_map : List String
  blocks : Option (List RawBlock)
deriving DecidableEq, Repr

/-- One decoded record, as pushed into `group.blocks` (lines 161-168); the
`type`/`called_from` labels used for the category key are carried along. -/
structure DRec where
  start_sec : ℚ
  end_sec : ℚ
  duration_sec : ℚ
  stage : Option String
  type : Option String
  called_from : Option String
  original_size : Option ℚ
  compressed_size : Option ℚ
deriving DecidableEq, Repr

/-- JS `s || d` on an optional string: `undefined`, `null` and `""` are
falsy. -/
def jsStrOr (o : Option String) (d : String) : String :=
  match o with
  | some s => if s = "" then d else s
  | none => d

/-- Category key construction: `` `${type || "None"}__${calledFrom || "None"}` ``. -/
def catKeyOf (r : DRec) : String :=
  jsStrOr r.type "None" ++ "__" ++ jsStrOr r.called_from "None"

/-- Decode one record of one block (lines 126-168): records missing
`start_us` or `duration_us` are skipped; times come from
`ts0_ms + start_us/1000` (and `+ duration_us/1000` for the end), converted
to seconds; the stage/type/called_from labels are dictionary lookups; the
size pair comes from the block's `size_map` with `[null, null]` fallback. -/
def decodeRecord (ts0 : ℚ) (pl : Payload) (blk : RawBlock) (rec : RawRecord) :
    Option (ℕ × DRec) :=
  match rec.start_us, rec.duration_us with
  | some startUs, some durationUs =>
    let startMs := ts0 + startUs / 1000
    let endMs := startMs + durationUs / 1000
    let sizePair := ((rec.size_idx.bind (blk.size_map.get? ·)).getD (none, none))
    some (blk.block_id,
      { start_sec := startMs / 1000
        end_sec := endMs / 1000
        duration_sec := durationUs / 1000000
        stage := rec.stage_idx.bind (pl.stage_map.get? ·)
        type := rec.type_idx.bind (pl.type_map.get? ·)
        called_from := rec.called_from_idx.bind (pl.called_from_map.get? ·)
        original_size := sizePair.1
        compressed_size := sizePair.2 })
  | _, _ => none

/-- All decoded `(block_id, record)` pairs of a payload, in payload order
(blocks outer, records inner); empty when `blocks` is not a list or `ts0`
did not parse. -/
def decodedRecords (pl : Payload) : List (ℕ × DRec) :=
  match pl.blocks, pl.ts0 with
  | some blocks, some ts0 =>
    blocks.flatMap (fun blk => blk.records.filterMap (decodeRecord ts0 pl blk))
  | _, _ => []

/-- Order-preserving grouping by key, modelling the JS `Map`-of-arrays
accumulation (`grouped` and `group.blocks`): a new key is appended, an
existing key's list is extended at the end. -/
def insertGrouped {κ α : Type} [DecidableEq κ] (k : κ) (a : α) :
    List (κ × List α) → List (κ × List α)
  | [] => [(k, [a])]
  | (k2, xs) :: rest =>
    if k = k2 then (k2, xs ++ [a]) :: rest else (k2, xs) :: insertGrouped k a rest

/-- Fold a keyed stream into insertion-ordered groups. -/
def groupByKey {κ α : Type} [DecidableEq κ] (l : List (κ × α)) : List (κ × List α) :=
  l.foldl (fun acc ka => insertGrouped ka.1 ka.2 acc) []

/-- `Math.min(...l)` over a non-empty list (callers guard emptiness). -/
def listMin : List ℚ → ℚ
  | [] => 0
  | x :: xs => xs.foldl min x

/-- `Math.max(...l)` over a non-empty list (callers guard emptiness). -/
def listMax : List ℚ → ℚ
  | [] => 0
  | x :: xs => xs.foldl max x

/-- First positive value delivered by `f` over the records in order.  This
models the JS `Set` accumulation (`if (v != null && v > 0) set.add(v)`
followed by `set.values().next().value`): a JS `Set` iterates in insertion
order, so the first collected value is the first positive one, and the set
is empty (`none` here) iff no positive value occurs. -/
def firstPositive (recs : List DRec) (f : DRec → Option ℚ) : Option ℚ :=
  ((recs.filterMap f).filter (fun x => decide (0 < x))).head?

/-- The per-block contributions to a category's series, in push order. -/
structure BlockPoints where
  compression_time : List Pt
  decompression_time : List Pt
  broadcast_full : List Pt
  broadcast_avg : List Pt
  broadcast_66p : List Pt
  block_size : List Pt
  compression_percent : List Pt
  size_by_id : List (ℕ × ℚ)
deriving DecidableEq, Repr

/-- A block's records sorted by start time
(`recs.sort((a, b) => a.start_sec - b.start_sec)`, line 219). -/
def blockSortedRecs (recs : List DRec) : List DRec :=
  recs.mergeSort (fun a b => decide (a.start_sec ≤ b.start_sec))

/-- `compressTs`: the start times of the block's compress-stage records
(line 229). -/
def compressStarts (recs : List DRec) : List ℚ :=
  ((blockSortedRecs recs).filter
    (fun r => decide (r.stage = some "compress"))).map DRec.start_sec

/-- `decompressTs`: the end times of the block's decompress-stage records
(line 230). -/
def decompressEnds (recs : List DRec) : List ℚ :=
  ((blockSortedRecs recs).filter
    (fun r => decide (r.stage = some "decompress"))).map DRec.end_sec

/-- Per-(category, block) processing: body of the `for (const [blockId,
recs] of byBlock.entries())` loop (lines 218-267).  Records are sorted by
start time; every compress/decompress record contributes a
`(end, duration)` point; the three broadcast points exist iff both a
compress start and a decompress end exist, anchored at the earliest
compress start; size and compression-percent points additionally require a
first positive original and compressed size. -/
def processBlock (bid : ℕ) (recs : List DRec) : BlockPoints :=
  let sortedRecs := blockSortedRecs recs
  let compressionTime := (sortedRecs.filter
    (fun r => decide (r.stage = some "compress"))).map
      (fun r => Pt.mk r.end_sec r.duration_sec (some bid))
  let decompressionTime := (sortedRecs.filter
    (fun r => decide (r.stage = some "decompress"))).map
      (fun r => Pt.mk r.end_sec r.duration_sec (some bid))
  let compressTs := compressStarts recs
  let decompressTs := decompressEnds recs
  if compressTs = [] ∨ decompressTs = [] then
    { compression_time := compressionTime, decompression_time := decompressionTime
      broadcast_full := [], broadcast_avg := [], broadcast_66p := []
      block_size := [], compression_percent := [], size_by_id := [] }
  else
    let tsBlock := listMin compressTs
    let latestDecompress := listMax decompressTs
    let avgDecomp := decompressTs.sum / (decompressTs.length : ℚ)
    let p66 := percentile (decompressTs.map (fun t => t - tsBlock)) 66
    let base : BlockPoints :=
      { compression_time := compressionTime, decompression_time := decompressionTime
        broadcast_full := [Pt.mk tsBlock (latestDecompress - tsBlock) (some bid)]
        broadcast_avg := [Pt.mk tsBlock (avgDecomp - tsBlock) (some bid)]
        broadcast_66p := [Pt.mk tsBlock p66 (some bid)]
        block_size := [], compression_percent := [], size_by_id := [] }
    match firstPositive sortedRecs DRec.original_size,
        firstPositive sortedRecs DRec.compressed_size with
    | some originalSize, some compressedSize =>
      { base with
        block_size := [Pt.mk tsBlock originalSize (some bid)]
        compression_percent :=
          [Pt.mk tsBlock ((originalSize - compressedSize) / originalSize) (some bid)]
        size_by_id := [(bid, originalSize)] }
    | _, _ => base

/-- `shiftPoints` (lines 198-202): subtract the experiment's earliest time
and re-sort ascending by time. -/
def shiftPoints (earliest : ℚ) (points : List Pt) : List Pt :=
  (points.map (fun p => Pt.mk (p.t - earliest) p.v p.bid)).mergeSort ptLe

/-- Per-category stats object (lines 269-281). -/
structure CategoryStats where
  type : Option String
  called_from : Option String
  num_blocks : ℕ
  block_size_points : List Pt
  compression_percent_points : List Pt
  broadcast_time_avg_points : List Pt
  broadcast_time_full_points : List Pt
  broadcast_time_66p_points : List Pt
  compression_time_points : List Pt
  decompression_time_points : List Pt
  block_size_by_id : List (ℕ × ℚ)
deriving DecidableEq, Repr

/-- Build one category's stats from its `(block_id, record)` stream in
decode order.  `groupByKey` reproduces the `group.blocks` `Map`; the seven
series concatenate the per-block contributions in block-insertion order and
are then shifted and re-sorted; the group's `type`/`called_from` come from
the record that created the group, i.e. the first of the stream. -/
def buildCategoryStats (earliest : ℚ) (items : List (ℕ × DRec)) : CategoryStats :=
  let byBlock := groupByKey items
  let perBlock := byBlock.map (fun bb => processBlock bb.1 bb.2)
  { type := match items.head? with
      | some br => br.2.type
      | none => none
    called_from := match items.head? with
      | some br => br.2.called_from
      | none => none
    num_blocks := byBlock.length
    block_size_points := shiftPoints earliest (perBlock.map BlockPoints.block_size).flatten
    compression_percent_points :=
      shiftPoints earliest (perBlock.map BlockPoints.compression_percent).flatten
    broadcast_time_avg_points :=
      shiftPoints earliest (perBlock.map BlockPoints.broadcast_avg).flatten
    broadcast_time_full_points :=
      shiftPoints earliest (perBlock.map BlockPoints.broadcast_full).flatten
    broadcast_time_66p_points :=
      shiftPoints earliest (perBlock.map BlockPoints.broadcast_66p).flatten
    compression_time_points :=
      shiftPoints earliest (perBlock.map BlockPoints.compression_time).flatten
    decompression_time_points :=
      shiftPoints earliest (perBlock.map BlockPoints.decompression_time).flatten
    block_size_by_id := (perBlock.map BlockPoints.size_by_id).flatten }

/-- The decoder's output.  `earliest_ts_global` is rendered by the source as
a local-timezone ISO string via `formatLocalIso(earliestSec * 1000)`; it is
modelled by the epoch-seconds value that string encodes, with `none` for the
`null` of the empty-stats sentinel. -/
structure Stats where
  experiment_name : String
  earliest_ts_global : Option ℚ
  type_called_from_stats : List (String × CategoryStats)
deriving DecidableEq, Repr

/-- The empty-stats sentinel `{experiment_name, earliest_ts_global: null,
type_called_from_stats: {}}`. -/
def emptyStats (name : String) : Stats :=
  { experiment_name := name, earliest_ts_global := none, type_called_from_stats := [] }

/-- Translation of `computeStatsFromCompressed(payload, fallbackName)`
(lines 84-310).  The drill-down `blocks` list, consumed only by the
block-index view, is not modelled (no claim refers to it).  The function is
total: every malformed input falls into the sentinel branches. -/
def computeStatsFromCompressed (pl : Payload) (fallbackName : String) : Stats :=
  let name := jsStrOr pl.experiment_name fallbackName
  match pl.blocks, pl.ts0 with
  | some _, some _ =>
    let decoded := decodedRecords pl
    let allTimes := decoded.flatMap (fun br => [br.2.start_sec, br.2.end_sec])
    match allTimes.min? with
    | none => emptyStats name
    | some earliest =>
      let grouped := groupByKey (decoded.map (fun br => (catKeyOf br.2, br)))
      { experiment_name := name
        earliest_ts_global := some earliest
        type_called_from_stats :=
          grouped.map (fun kg => (kg.1, buildCategoryStats earliest kg.2)) }
  | _, _ => emptyStats name

/-- C5.  The decoder fails soft: it is a total function (the Lean
translation can raise nothing), and whenever `blocks` is not a list, or
`ts0` is missing/unparseable, or no record at all is decoded (e.g. every
record lacks `start_us` or `duration_us`), it returns the empty-stats
sentinel `{experiment_name, earliest_ts_global: null,
type_called_from_stats: {}}` with no category stats. -/
theorem computeStats_failSoft (pl : Payload) (fallbackName : String)
    (h : pl.blocks = none ∨ pl.ts0 = none ∨ decodedRecords pl = []) :
    computeStatsFromCompressed pl fallbackName
      = emptyStats (jsStrOr pl.experiment_name fallbackName) := by
  rcases h with h | h | h
  · cases ht : pl.ts0 <;> simp [computeStatsFromCompressed, h, ht]
  · cases hb : pl.blocks <;> simp [computeStatsFromCompressed, h, hb]
  · cases hb : pl.blocks <;> cases ht : pl.ts0 <;>
      simp [computeStatsFromCompressed, hb, ht, h]

/-- Witness for `computeStats_failSoft`: a payload whose `blocks` is not a
list, and a well-formed payload whose only record lacks `start_us`, both
produce the sentinel. -/
theorem computeStats_failSoft_witness :
    computeStatsFromCompressed ⟨some "exp", some 0, [], [], [], none⟩ "fb"
      = emptyStats (jsStrOr (some "exp") "fb")
    ∧ computeStatsFromCompressed
        ⟨none, some 0, ["compress"], [], [],
          some [⟨5, [], [⟨none, some 1, some 0, none, none, none⟩]⟩]⟩ "fb"
      = emptyStats (jsStrOr none "fb") :=
  ⟨computeStats_failSoft ⟨some "exp", some 0, [], [], [], none⟩ "fb" (Or.inl rfl),
   computeStats_failSoft _ "fb" (Or.inr (Or.inr (by decide)))⟩

/-- C3.  Per category and per block: the three broadcast series receive a
point for the block iff the block has at least one compress-stage record
and at least one decompress-stage record (if either set is empty no
broadcast, `block_size` or `compression_percent` point is produced); when
both exist, `broadcast_time_full = max(decompress ends) - min(compress
starts)`, `broadcast_time_avg = mean(decompress ends) - min(compress
starts)`, `broadcast_time_66p = percentile({end - min(compress starts)},
66)`, all three anchored at `x = min(compress starts)`. -/
theorem processBlock_broadcast (bid : ℕ) (recs : List DRec) :
    (compressStarts recs ≠ [] → decompressEnds recs ≠ [] →
      (processBlock bid recs).broadcast_full
          = [⟨listMin (compressStarts recs),
              listMax (decompressEnds recs) - listMin (compressStarts recs), some bid⟩]
        ∧ (processBlock bid recs).broadcast_avg
          = [⟨listMin (compressStarts recs),
              (decompressEnds recs).sum / ((decompressEnds recs).length : ℚ)
                - listMin (compressStarts recs), some bid⟩]
        ∧ (processBlock bid recs).broadcast_66p
          = [⟨listMin (compressStarts recs),
              percentile ((decompressEnds recs).map
                (fun t => t - listMin (compressStarts recs))) 66, some bid⟩])
    ∧ (compressStarts recs = [] ∨ decompressEnds recs = [] →
        (processBlock bid recs).broadcast_full = []
        ∧ (processBlock bid recs).broadcast_avg = []
        ∧ (processBlock bid recs).broadcast_66p = []
        ∧ (processBlock bid recs).block_size = []
        ∧ (processBlock bid recs).compression_percent = []) := by
  constructor
  · intro h1 h2
    simp only [processBlock]
    rw [if_neg (by simp [h1, h2])]
    refine ⟨?_, ?_, ?_⟩ <;> (split <;> rfl)
  · intro h
    simp only [processBlock]
    rw [if_pos h]
    exact ⟨rfl, rfl, rfl, rfl, rfl⟩

/-- The spec's block-grouper test vector: compress records starting at
t = 10 and 12, decompress records ending at t = 20, 25, 30. -/
def c3recs : List DRec :=
  [⟨10, 11, 1, some "compress", none, none, none, none⟩,
   ⟨12, 13, 1, some "compress", none, none, none, none⟩,
   ⟨15, 20, 5, some "decompress", none, none, none, none⟩,
   ⟨16, 25, 9, some "decompress", none, none, none, none⟩,
   ⟨17, 30, 13, some "decompress", none, none, none, none⟩]

/-- Witness for `processBlock_broadcast` on the spec's test vector:
`broadcast_time_full = 30 - 10 = 20`, `broadcast_time_avg = 25 - 10 = 15`,
`broadcast_time_66p = percentile([10, 15, 20], 66)`, all anchored at 10. -/
theorem processBlock_broadcast_witness :
    (processBlock 3 c3recs).broadcast_full = [⟨10, 20, some 3⟩]
    ∧ (processBlock 3 c3recs).broadcast_avg = [⟨10, 15, some 3⟩]
    ∧ (processBlock 3 c3recs).broadcast_66p
        = [⟨10, percentile [10, 15, 20] 66, some 3⟩] := by
  have hcs : compressStarts c3recs = [10, 12] := by
    rw [compressStarts, blockSortedRecs, List.mergeSort_of_sorted (by decide)]
    decide
  have hde : decompressEnds c3recs = [20, 25, 30] := by
    rw [decompressEnds, blockSortedRecs, List.mergeSort_of_sorted (by decide)]
    decide
  obtain ⟨hf, ha, hp⟩ := (processBlock_broadcast 3 c3recs).1
    (by rw [hcs]; decide) (by rw [hde]; decide)
  refine ⟨?_, ?_, ?_⟩
  · rw [hf, hcs, hde]
    norm_num [listMin, listMax, min_def, max_def]
  · rw [ha, hcs, hde]
    norm_num [listMin, min_def, List.sum_cons]
  · rw [hp, hcs, hde]
    norm_num [listMin, min_def, List.map]

/-! Properties of `insertGrouped`/`groupByKey`. -/

/-- First-match association lookup over the grouped list. -/
def findGroup {κ α : Type} [DecidableEq κ] (k : κ) : List (κ × List α) → Option (List α)
  | [] => none
  | (k2, xs) :: rest => if k = k2 then some xs else findGroup k rest

theorem insertGrouped_keys {κ α : Type} [DecidableEq κ] (k : κ) (a : α)
    (acc : List (κ × List α)) :
    (insertGrouped k a acc).map Prod.fst
      = if k ∈ acc.map Prod.fst then acc.map Prod.fst
        else acc.map Prod.fst ++ [k] := by
  induction acc with
  | nil => simp [insertGrouped]
  | cons e rest ih =>
    obtain ⟨k2, xs⟩ := e
    simp only [insertGrouped]
    by_cases hk : k = k2
    · rw [if_pos hk]
      simp [hk]
    · rw [if_neg hk]
      by_cases hmem : k ∈ rest.map Prod.fst
      · simp [hk, hmem, ih]
      · simp [hk, hmem, ih]

theorem insertGrouped_keys_nodup {κ α : Type} [DecidableEq κ] {k : κ} {a : α}
    {acc : List (κ × List α)} (h : (acc.map Prod.fst).Nodup) :
    ((insertGrouped k a acc).map Prod.fst).Nodup := by
  rw [insertGrouped_keys]
  split
  · exact h
  · rename_i hmem
    simp [List.nodup_append, h, hmem]

theorem findGroup_insertGrouped_self {κ α : Type} [DecidableEq κ] (k : κ) (a : α)
    (acc : List (κ × List α)) :
    findGroup k (insertGrouped k a acc)
      = some ((findGroup k acc).getD [] ++ [a]) := by
  induction acc with
  | nil => simp [insertGrouped, findGroup]
  | cons e rest ih =>
    obtain ⟨k2, xs⟩ := e
    simp only [insertGrouped]
    by_cases hk : k = k2
    · rw [if_pos hk]
      simp [findGroup, hk]
    · rw [if_neg hk]
      simp [findGroup, hk, ih]

theorem findGroup_insertGrouped_other {κ α : Type} [DecidableEq κ] {k k2 : κ}
    (hne : k ≠ k2) (a : α) (acc : List (κ × List α)) :
    findGroup k (insertGrouped k2 a acc) = findGroup k acc := by
  induction acc with
  | nil => simp [insertGrouped, findGroup, hne]
  | cons e rest ih =>
    obtain ⟨k3, xs⟩ := e
    simp only [insertGrouped]
    by_cases hk : k2 = k3
    · rw [if_pos hk]
      subst hk
      simp [findGroup, hne]
    · rw [if_neg hk]
      by_cases hk2 : k = k3
      · simp [findGroup, hk2]
      · simp [findGroup, hk2, ih]

theorem findGroup_fold {κ α : Type} [DecidableEq κ] :
    ∀ (l : List (κ × α)) (acc : List (κ × List α)) (k : κ),
      findGroup k (l.foldl (fun acc ka => insertGrouped ka.1 ka.2 acc) acc)
        = if (findGroup k acc).isSome ∨ k ∈ l.map Prod.fst
          then some ((findGroup k acc).getD []
            ++ (l.filter (fun e => decide (e.1 = k))).map Prod.snd)
          else none
  | [], acc, k => by
      cases h : findGroup k acc <;> simp [h]
  | (k2, a) :: tl, acc, k => by
      simp only [List.foldl_cons]
      rw [findGroup_fold tl (insertGrouped k2 a acc) k]
      by_cases hk : k = k2
      · subst hk
        rw [findGroup_insertGrouped_self k a acc]
        simp [List.filter_cons]
      · rw [findGroup_insertGrouped_other hk a acc]
        have hne2 : ¬ (k2 = k) := fun h => hk h.symm
        simp only [List.map_cons]
        rw [List.filter_cons_of_neg (by simp [hne2])]
        exact if_congr (by simp [List.mem_cons, hk]) rfl rfl

theorem findGroup_eq_of_mem {κ α : Type} [DecidableEq κ] {k : κ} {xs : List α} :
    ∀ {lst : List (κ × List α)}, (lst.map Prod.fst).Nodup → (k, xs) ∈ lst →
      findGroup k lst = some xs
  | [], _, hmem => absurd hmem (by simp)
  | (k2, ys) :: rest, hnd, hmem => by
      rw [List.map_cons, List.nodup_cons] at hnd
      rcases List.mem_cons.mp hmem with heq | htl
      · cases heq
        simp [findGroup]
      · have hkne : ¬ k = k2 := by
          intro hkk
          subst hkk
          exact hnd.1 (by simpa using List.mem_map_of_mem Prod.fst htl)
        simp only [findGroup, if_neg hkne]
        exact findGroup_eq_of_mem hnd.2 htl

theorem fold_insertGrouped_keys_nodup {κ α : Type} [DecidableEq κ] :
    ∀ (l : List (κ × α)) (acc : List (κ × List α)), (acc.map Prod.fst).Nodup →
      ((l.foldl (fun acc ka => insertGrouped ka.1 ka.2 acc) acc).map Prod.fst).Nodup
  | [], _, h => h
  | (_, _) :: tl, acc, h =>
    fold_insertGrouped_keys_nodup tl _ (insertGrouped_keys_nodup h)

theorem groupByKey_keys_nodup {κ α : Type} [DecidableEq κ] (l : List (κ × α)) :
    ((groupByKey l).map Prod.fst).Nodup :=
  fold_insertGrouped_keys_nodup l [] (by simp)

theorem groupByKey_findGroup {κ α : Type} [DecidableEq κ] (l : List (κ × α)) (k : κ) :
    findGroup k (groupByKey l)
      = if k ∈ l.map Prod.fst
        then some ((l.filter (fun e => decide (e.1 = k))).map Prod.snd)
        else none := by
  rw [groupByKey, findGroup_fold l [] k]
  simp only [findGroup, Option.isSome_none, Option.getD_none, List.nil_append]
  exact if_congr (by simp) rfl rfl

theorem findGroup_isSome_iff {κ α : Type} [DecidableEq κ] (k : κ) :
    ∀ (lst : List (κ × List α)),
      (findGroup k lst).isSome ↔ k ∈ lst.map Prod.fst
  | [] => by simp [findGroup]
  | (k2, xs) :: rest => by
      simp only [findGroup, List.map_cons, List.mem_cons]
      by_cases hk : k = k2
      · simp [hk]
      · simp [hk, findGroup_isSome_iff k rest]

theorem groupByKey_keys_mem {κ α : Type} [DecidableEq κ] (l : List (κ × α)) (k : κ) :
    k ∈ (groupByKey l).map Prod.fst ↔ k ∈ l.map Prod.fst := by
  rw [← findGroup_isSome_iff, groupByKey_findGroup]
  split <;> rename_i h <;> simp [h]

theorem groupByKey_mem_spec {κ α : Type} [DecidableEq κ] {l : List (κ × α)}
    {k : κ} {xs : List α} (h : (k, xs) ∈ groupByKey l) :
    xs = (l.filter (fun e => decide (e.1 = k))).map Prod.snd := by
  have hf := findGroup_eq_of_mem (groupByKey_keys_nodup l) h
  rw [groupByKey_findGroup] at hf
  split at hf
  · exact (Option.some_inj.mp hf).symm
  · simp at hf

theorem groupByKey_length {κ α : Type} [DecidableEq κ] (l : List (κ × α)) :
    (groupByKey l).length = (l.map Prod.fst).dedup.length := by
  have h1 : ((groupByKey l).map Prod.fst).Nodup := groupByKey_keys_nodup l
  have h2 : ((l.map Prod.fst).dedup).Nodup := List.nodup_dedup _
  have hfin : ((groupByKey l).map Prod.fst).toFinset
      = ((l.map Prod.fst).dedup).toFinset := by
    ext k
    simp only [List.mem_toFinset, List.mem_dedup]
    exact groupByKey_keys_mem l k
  have hcard := congrArg Finset.card hfin
  rw [List.toFinset_card_of_nodup h1, List.toFinset_card_of_nodup h2] at hcard
  rw [← List.length_map (groupByKey l) Prod.fst]
  exact hcard

theorem processBlock_block_size_len (bid : ℕ) (recs : List DRec) :
    (processBlock bid recs).block_size.length ≤ 1 := by
  simp only [processBlock]
  split
  · simp
  · split <;> simp

theorem shiftPoints_length (earliest : ℚ) (points : List Pt) :
    (shiftPoints earliest points).length = points.length := by
  rw [shiftPoints, List.length_mergeSort, List.length_map]

theorem nat_sum_le_length : ∀ (ns : List ℕ), (∀ n ∈ ns, n ≤ 1) → ns.sum ≤ ns.length
  | [], _ => by simp
  | n :: tl, h => by
    have h1 := h n (by simp)
    have h2 := nat_sum_le_length tl (fun m hm => h m (by simp [hm]))
    simp only [List.sum_cons, List.length_cons]
    omega

/-- C9.  For every decoded payload and every category in its stats,
`num_blocks` is the number of distinct block ids having at least one
decoded record in that category — blocks contributing no series points
included — and is therefore at least the length of the category's
`block_size` series. -/
theorem computeStats_num_blocks (pl : Payload) (fallbackName : String)
    (k : String) (st : CategoryStats)
    (hmem : (k, st) ∈ (computeStatsFromCompressed pl fallbackName).type_called_from_stats) :
    st.num_blocks
      = (((decodedRecords pl).filter
          (fun br => decide (catKeyOf br.2 = k))).map Prod.fst).dedup.length
    ∧ st.block_size_points.length ≤ st.num_blocks := by
  have hstats : ∃ earliest, st = buildCategoryStats earliest
      ((decodedRecords pl).filter (fun br => decide (catKeyOf br.2 = k))) := by
    unfold computeStatsFromCompressed at hmem
    rcases hb : pl.blocks with _ | blocks
    · rw [hb] at hmem
      cases ht : pl.ts0 <;> rw [ht] at hmem <;> simp [emptyStats] at hmem
    rcases ht : pl.ts0 with _ | ts0
    · rw [hb, ht] at hmem
      simp [emptyStats] at hmem
    rw [hb, ht] at hmem
    simp only at hmem
    rcases hmin : (((decodedRecords pl).flatMap
        (fun br => [br.2.start_sec, br.2.end_sec])).min?) with _ | earliest
    · rw [hmin] at hmem
      simp [emptyStats] at hmem
    rw [hmin] at hmem
    simp only [List.mem_map] at hmem
    obtain ⟨⟨k2, items⟩, hkg, heq⟩ := hmem
    have hkk : k2 = k := congrArg Prod.fst heq
    have hst : buildCategoryStats earliest items = st := congrArg Prod.snd heq
    subst k2
    refine ⟨earliest, ?_⟩
    have hitems := groupByKey_mem_spec hkg
    have hfilter : ((decodedRecords pl).map
          (fun br => (catKeyOf br.2, br))).filter (fun e => decide (e.1 = k))
        = ((decodedRecords pl).filter
            (fun br => decide (catKeyOf br.2 = k))).map (fun br => (catKeyOf br.2, br)) := by
      rw [List.filter_map]
      rfl
    rw [hfilter, List.map_map] at hitems
    have : items = (decodedRecords pl).filter (fun br => decide (catKeyOf br.2 = k)) := by
      rw [hitems]
      exact (List.map_congr_left (fun a _ => rfl)).trans (List.map_id _)
    rw [← hst, this]
  obtain ⟨earliest, hst⟩ := hstats
  subst hst
  constructor
  · show (groupByKey _).length = _
    rw [groupByKey_length]
  · show (shiftPoints _ _).length ≤ (groupByKey _).length
    rw [shiftPoints_length]
    rw [List.length_flatten]
    have hle : ∀ n ∈ (((groupByKey ((decodedRecords pl).filter
        (fun br => decide (catKeyOf br.2 = k)))).map
          (fun bb => processBlock bb.1 bb.2)).map BlockPoints.block_size).map List.length,
        n ≤ 1 := by
      intro n hn
      simp only [List.mem_map] at hn
      obtain ⟨pts, ⟨bp, ⟨bb, hbb, hpb⟩, hbs⟩, hlen⟩ := hn
      rw [← hlen, ← hbs, ← hpb]
      exact processBlock_block_size_len bb.1 bb.2
    have := nat_sum_le_length _ hle
    simpa using this

/-- A one-block, one-record payload: block 7 holds a single compress-stage
record of type `t`, starting at `ts0` with a one-second duration. -/
def c9payload : Payload :=
  { experiment_name := some "e"
    ts0 := some 0
    stage_map := ["compress"]
    type_map := ["t"]
    called_from_map := []
    blocks := some [⟨7, [], [⟨some 0, some 1000000, some 0, some 0, none, none⟩]⟩] }

/-- The decoded form of `c9payload`'s single record. -/
def c9drec : DRec :=
  { start_sec := 0, end_sec := 1, duration_sec := 1, stage := some "compress"
    type := some "t", called_from := none, original_size := none, compressed_size := none }

/-- Witness for `computeStats_num_blocks` on `c9payload`: its single
category counts one block even though the block (compress-only) contributes
no `block_size` point. -/
theorem computeStats_num_blocks_witness :
    (buildCategoryStats 0 [(7, c9drec)]).num_blocks
      = (((decodedRecords c9payload).filter
          (fun br => decide (catKeyOf br.2 = "t__None"))).map Prod.fst).dedup.length
    ∧ (buildCategoryStats 0 [(7, c9drec)]).block_size_points.length
        ≤ (buildCategoryStats 0 [(7, c9drec)]).num_blocks := by
  have hstats : computeStatsFromCompressed c9payload "fb"
      = ⟨"e", some 0, [("t__None", buildCategoryStats 0 [(7, c9drec)])]⟩ := by
    norm_num [computeStatsFromCompressed, c9payload, c9drec, decodedRecords, decodeRecord,
      jsStrOr, catKeyOf, groupByKey, insertGrouped, List.min?, List.foldl_cons,
      List.foldl_nil, min_def, List.flatMap_cons, List.flatMap_nil, List.filterMap_cons]
    decide
  exact computeStats_num_blocks c9payload "fb" "t__None"
    (buildCategoryStats 0 [(7, c9drec)]) (by rw [hstats]; simp)

/-! ## Cross-Experiment Union Builder (`buildPlotsData`) -/

/-- One per-experiment series slot `{name, base_ts, points}`. -/
structure SeriesObj where
  name : String
  base_ts : Option ℚ
  points : List Pt
deriving DecidableEq, Repr

/-- A `unionMap` entry `{type, called_from, label}`. -/
structure Meta where
  type : Option String
  called_from : Option String
  label : String
deriving DecidableEq, Repr

/-- First-match association lookup (JS object property read `m[k]`). -/
def findAssoc {κ β : Type} [DecidableEq κ] (k : κ) : List (κ × β) → Option β
  | [] => none
  | (k2, b) :: rest => if k = k2 then some b else findAssoc k rest

/-- JS template interpolation of a possibly-undefined string:
`` `${t}` `` renders `undefined` as the string `"undefined"`. -/
def showOpt (o : Option String) : String := o.getD "undefined"

/-- Label rule (line 319): origin `null` or the literal `"None"` gives just
the type, otherwise `"{type} ({origin})"`. -/
def labelOf (t cf : Option String) : String :=
  if cf = none ∨ cf = some "None" then showOpt t
  else showOpt t ++ " (" ++ cf.getD "" ++ ")"

/-- Insert-or-replace into `unionMap` (JS `unionMap[k] = {...}`): an
existing key keeps its position, its meta is overwritten; a new key is
appended. -/
def upsertMeta : List (String × Meta) → String → Meta → List (String × Meta)
  | [], k, m => [(k, m)]
  | (k2, m2) :: rest, k, m =>
    if k = k2 then (k2, m) :: rest else (k2, m2) :: upsertMeta rest k m

/-- The `unionMap` accumulation (lines 313-322): for every experiment in
order, for every category entry in stats order, upsert its meta. -/
def unionMapOf (exps : List (String × Stats)) : List (String × Meta) :=
  exps.foldl (fun acc e =>
    (e.2.type_called_from_stats).foldl (fun acc2 kp =>
      upsertMeta acc2 kp.1 ⟨kp.2.type, kp.2.called_from, labelOf kp.2.type kp.2.called_from⟩)
      acc) []

/-- `String(x || "")`: an absent or empty type/origin compares as `""`. -/
def strOrEmpty (o : Option String) : String := o.getD ""

/-- The sort key of a union key: the pair (type, origin) of its `unionMap`
meta, with absent components as the empty string. -/
def unionSortPair (um : List (String × Meta)) (k : String) : String × String :=
  (strOrEmpty ((findAssoc k um).bind Meta.type),
   strOrEmpty ((findAssoc k um).bind Meta.called_from))

/-- Lexicographic comparison on sort keys: primarily by type, secondarily by
origin (models the `localeCompare`-based comparator of lines 324-331 as
standard string order). -/
def keyPairLe (p q : String × String) : Prop :=
  p.1 < q.1 ∨ (p.1 = q.1 ∧ p.2 ≤ q.2)

instance keyPairLe.instDecidable (p q : String × String) : Decidable (keyPairLe p q) := by
  unfold keyPairLe
  infer_instance

/-- Boolean comparator used to sort union keys. -/
def unionKeyLE (um : List (String × Meta)) (a b : String) : Bool :=
  decide (keyPairLe (unionSortPair um a) (unionSortPair um b))

/-- The seven per-category series kinds. -/
inductive SeriesKind
  | blockSize
  | compressionPercent
  | broadcastAvg
  | broadcastFull
  | broadcast66p
  | compressionTime
  | decompressionTime
deriving DecidableEq, Repr

/-- The points a category-stats pair supplies for a series kind. -/
def pairPoints : SeriesKind → CategoryStats → List Pt
  | .blockSize, p => p.block_size_points
  | .compressionPercent, p => p.compression_percent_points
  | .broadcastAvg, p => p.broadcast_time_avg_points
  | .broadcastFull, p => p.broadcast_time_full_points
  | .broadcast66p, p => p.broadcast_time_66p_points
  | .compressionTime, p => p.compression_time_points
  | .decompressionTime, p => p.decompression_time_points

/-- A `PLOTS_DATA[k]` entry: the label, the per-experiment
`block_size_by_id` lookups, and the seven per-experiment series lists. -/
structure PlotEntry where
  label : String
  block_size_by_id_series : List (List (ℕ × ℚ))
  block_size_series : List SeriesObj
  compression_percent_series : List SeriesObj
  broadcast_time_avg_series : List SeriesObj
  broadcast_time_full_series : List SeriesObj
  broadcast_time_66p_series : List SeriesObj
  compression_time_series : List SeriesObj
  decompression_time_series : List SeriesObj
deriving DecidableEq, Repr

/-- Kind-indexed access to a `PlotEntry`'s seven series lists. -/
def PlotEntry.series : PlotEntry → SeriesKind → List SeriesObj
  | e, .blockSize => e.block_size_series
  | e, .compressionPercent => e.compression_percent_series
  | e, .broadcastAvg => e.broadcast_time_avg_series
  | e, .broadcastFull => e.broadcast_time_full_series
  | e, .broadcast66p => e.broadcast_time_66p_series
  | e, .compressionTime => e.compression_time_series
  | e, .decompressionTime => e.decompression_time_series

/-- The per-union-key entry (lines 336-375): one slot per experiment in
experiment order; an experiment lacking the category contributes an
empty-points placeholder that still carries its name and time origin. -/
def entryFor (um : List (String × Meta)) (k : String) (exps : List (String × Stats)) :
    PlotEntry :=
  let meta := (findAssoc k um).getD ⟨none, none, ""⟩
  let slot := fun (kind : SeriesKind) (e : String × Stats) =>
    match findAssoc k e.2.type_called_from_stats with
    | some pair =>
      SeriesObj.mk e.1 e.2.earliest_ts_global (pairPoints kind pair)
    | none => SeriesObj.mk e.1 e.2.earliest_ts_global []
  { label := meta.label
    block_size_by_id_series := exps.map (fun e =>
      match findAssoc k e.2.type_called_from_stats with
      | some pair => pair.block_size_by_id
      | none => [])
    block_size_series := exps.map (slot .blockSize)
    compression_percent_series := exps.map (slot .compressionPercent)
    broadcast_time_avg_series := exps.map (slot .broadcastAvg)
    broadcast_time_full_series := exps.map (slot .broadcastFull)
    broadcast_time_66p_series := exps.map (slot .broadcast66p)
    compression_time_series := exps.map (slot .compressionTime)
    decompression_time_series := exps.map (slot .decompressionTime) }

/-- Result bundle of `buildPlotsData`. -/
structure PlotsData where
  unionKeys : List String
  unionMap : List (String × Meta)
  expShortNames : List String
  plotsData : List (String × PlotEntry)
deriving DecidableEq, Repr

/-- Translation of `buildPlotsData(experiments)` (lines 312-378); an
experiment is a `(name, stats)` pair. -/
def buildPlotsData (exps : List (String × Stats)) : PlotsData :=
  let um := unionMapOf exps
  let unionKeys := (um.map Prod.fst).mergeSort (unionKeyLE um)
  { unionKeys := unionKeys
    unionMap := um
    expShortNames := exps.map Prod.fst
    plotsData := unionKeys.map (fun k => (k, entryFor um k exps)) }

theorem upsertMeta_keys_mem (acc : List (String × Meta)) (k : String) (m : Meta)
    (k2 : String) :
    k2 ∈ (upsertMeta acc k m).map Prod.fst ↔ k2 ∈ acc.map Prod.fst ∨ k2 = k := by
  induction acc with
  | nil => simp [upsertMeta]
  | cons e rest ih =>
    obtain ⟨k3, m3⟩ := e
    simp only [upsertMeta]
    by_cases hk : k = k3
    · subst hk
      rw [if_pos rfl]
      simp only [List.map_cons, List.mem_cons]
      tauto
    · rw [if_neg hk]
      simp only [List.map_cons, List.mem_cons]
      rw [ih]
      tauto

theorem foldl_upsert_keys_mem (l : List (String × CategoryStats)) :
    ∀ (acc : List (String × Meta)) (k2 : String),
      k2 ∈ ((l.foldl (fun acc2 kp => upsertMeta acc2 kp.1
          ⟨kp.2.type, kp.2.called_from, labelOf kp.2.type kp.2.called_from⟩) acc).map
            Prod.fst)
        ↔ k2 ∈ acc.map Prod.fst ∨ k2 ∈ l.map Prod.fst := by
  induction l with
  | nil => intro acc k2; simp
  | cons e tl ih =>
    intro acc k2
    simp only [List.foldl_cons, List.map_cons, List.mem_cons]
    rw [ih, upsertMeta_keys_mem]
    tauto

theorem unionMapOf_keys_mem (exps : List (String × Stats)) (k : String) :
    k ∈ (unionMapOf exps).map Prod.fst
      ↔ ∃ e ∈ exps, k ∈ (e.2.type_called_from_stats).map Prod.fst := by
  suffices h : ∀ (l : List (String × Stats)) (acc : List (String × Meta)),
      k ∈ ((l.foldl (fun acc e => (e.2.type_called_from_stats).foldl
          (fun acc2 kp => upsertMeta acc2 kp.1
            ⟨kp.2.type, kp.2.called_from, labelOf kp.2.type kp.2.called_from⟩) acc) acc).map
              Prod.fst)
        ↔ k ∈ acc.map Prod.fst ∨ ∃ e ∈ l, k ∈ (e.2.type_called_from_stats).map Prod.fst by
    have := h exps []
    simpa [unionMapOf] using this
  intro l
  induction l with
  | nil => intro acc; simp
  | cons e tl ih =>
    intro acc
    simp only [List.foldl_cons]
    rw [ih, foldl_upsert_keys_mem]
    constructor
    · rintro ((h | h) | ⟨e2, he2, hk2⟩)
      · exact Or.inl h
      · exact Or.inr ⟨e, by simp, h⟩
      · exact Or.inr ⟨e2, by simp [he2], hk2⟩
    · rintro (h | ⟨e2, he2, hk2⟩)
      · exact Or.inl (Or.inl h)
      · rcases List.mem_cons.mp he2 with rfl | htl
        · exact Or.inl (Or.inr hk2)
        · exact Or.inr ⟨e2, htl, hk2⟩

theorem keyPairLe_trans {p q r : String × String} (h1 : keyPairLe p q)
    (h2 : keyPairLe q r) : keyPairLe p r := by
  rcases h1 with h1 | ⟨he1, hc1⟩ <;> rcases h2 with h2 | ⟨he2, hc2⟩
  · exact Or.inl (lt_trans h1 h2)
  · exact Or.inl (he2 ▸ h1)
  · exact Or.inl (he1 ▸ h2)
  · exact Or.inr ⟨he1.trans he2, le_trans hc1 hc2⟩

theorem keyPairLe_total (p q : String × String) : keyPairLe p q ∨ keyPairLe q p := by
  rcases lt_trichotomy p.1 q.1 with h | h | h
  · exact Or.inl (Or.inl h)
  · rcases le_total p.2 q.2 with hc | hc
    · exact Or.inl (Or.inr ⟨h, hc⟩)
    · exact Or.inr (Or.inr ⟨h.symm, hc⟩)
  · exact Or.inr (Or.inl h)

theorem unionKeyLE_trans (um : List (String × Meta)) :
    ∀ a b c, unionKeyLE um a b → unionKeyLE um b c → unionKeyLE um a c := by
  intro a b c h1 h2
  simp only [unionKeyLE, decide_eq_true_eq] at *
  exact keyPairLe_trans h1 h2

theorem unionKeyLE_total (um : List (String × Meta)) :
    ∀ a b, unionKeyLE um a b || unionKeyLE um b a := by
  intro a b
  simp only [unionKeyLE, Bool.or_eq_true, decide_eq_true_eq]
  exact keyPairLe_total _ _

/-- C7.  The union builder: (1) its key list is exactly the union of the
experiments' category keys; (2) it is sorted primarily by type and
secondarily by origin (absent components comparing as the empty string);
(3) for every union key and each of the seven series kinds, the entry holds
exactly one series per experiment, in experiment order, each carrying that
experiment's name and time origin — with empty points when the experiment
lacks the category, and the category's own points when it has it. -/
theorem buildPlotsData_spec (exps : List (String × Stats)) :
    (∀ k, k ∈ (buildPlotsData exps).unionKeys
        ↔ ∃ e ∈ exps, k ∈ (e.2.type_called_from_stats).map Prod.fst)
    ∧ (buildPlotsData exps).unionKeys.Pairwise
        (fun a b => keyPairLe (unionSortPair (buildPlotsData exps).unionMap a)
          (unionSortPair (buildPlotsData exps).unionMap b))
    ∧ (∀ k entry, (k, entry) ∈ (buildPlotsData exps).plotsData →
        ∀ kind : SeriesKind,
          (entry.series kind).length = exps.length
          ∧ ∀ (i : ℕ) (e : String × Stats), exps.get? i = some e →
              ∃ s, (entry.series kind).get? i = some s
                ∧ s.name = e.1
                ∧ s.base_ts = e.2.earliest_ts_global
                ∧ (findAssoc k e.2.type_called_from_stats = none → s.points = [])
                ∧ (∀ pair, findAssoc k e.2.type_called_from_stats = some pair →
                    s.points = pairPoints kind pair)) := by
  refine ⟨?_, ?_, ?_⟩
  · intro k
    show k ∈ ((unionMapOf exps).map Prod.fst).mergeSort (unionKeyLE (unionMapOf exps)) ↔ _
    rw [List.mem_mergeSort]
    exact unionMapOf_keys_mem exps k
  · show (((unionMapOf exps).map Prod.fst).mergeSort (unionKeyLE (unionMapOf exps))).Pairwise _
    have hs := @List.sorted_mergeSort _ (unionKeyLE (unionMapOf exps))
      (unionKeyLE_trans _) (unionKeyLE_total _) ((unionMapOf exps).map Prod.fst)
    refine hs.imp ?_
    intro a b h
    have : keyPairLe (unionSortPair (unionMapOf exps) a) (unionSortPair (unionMapOf exps) b) := by
      simpa [unionKeyLE] using h
    exact this
  · intro k entry hmem kind
    have hpd : (buildPlotsData exps).plotsData
        = (buildPlotsData exps).unionKeys.map
            (fun k => (k, entryFor (unionMapOf exps) k exps)) := rfl
    rw [hpd] at hmem
    simp only [List.mem_map] at hmem
    obtain ⟨k2, _, heq⟩ := hmem
    have hkk : k2 = k := congrArg Prod.fst heq
    have hent : entryFor (unionMapOf exps) k2 exps = entry := congrArg Prod.snd heq
    subst hkk
    subst hent
    have hser : (entryFor (unionMapOf exps) k2 exps).series kind
        = exps.map (fun e =>
            match findAssoc k2 e.2.type_called_from_stats with
            | some pair => SeriesObj.mk e.1 e.2.earliest_ts_global (pairPoints kind pair)
            | none => SeriesObj.mk e.1 e.2.earliest_ts_global []) := by
      cases kind <;> rfl
    rw [hser]
    constructor
    · exact List.length_map ..
    · intro i e hi
      rw [List.get?_map, hi]
      cases hfa : findAssoc k2 e.2.type_called_from_stats with
      | none =>
        refine ⟨SeriesObj.mk e.1 e.2.earliest_ts_global [], by simp [hfa], rfl, rfl, ?_, ?_⟩
        · intro _; rfl
        · intro pair hpair
          simp at hpair
      | some pair =>
        refine ⟨SeriesObj.mk e.1 e.2.earliest_ts_global (pairPoints kind pair),
          by simp [hfa], rfl, rfl, ?_, ?_⟩
        · intro hnone
          simp at hnone
        · intro pair2 hpair2
          have : pair = pair2 := by simpa using hpair2
          rw [this]

/-- Category `X`'s stats in the union-builder example. -/
def c7catX : CategoryStats :=
  ⟨some "X", none, 1, [⟨0, 1, some 1⟩], [], [], [], [], [], [], []⟩

/-- Category `Y`'s stats in the union-builder example. -/
def c7catY : CategoryStats :=
  ⟨some "Y", none, 1, [⟨0, 2, some 2⟩], [], [], [], [], [], [], []⟩

/-- Experiment `A`, holding only category `X`. -/
def c7expA : String × Stats := ("A", ⟨"A", some 0, [("X__None", c7catX)]⟩)

/-- Experiment `B`, holding categories `X` and `Y`. -/
def c7expB : String × Stats :=
  ("B", ⟨"B", some 1, [("X__None", c7catX), ("Y__None", c7catY)]⟩)

/-- The union-builder example experiments. -/
def c7exps : List (String × Stats) := [c7expA, c7expB]

/-- Witness for `buildPlotsData_spec`: with experiments A = {X} and
B = {X, Y}, key `Y__None` is in the union, its `block_size` series list has
one slot per experiment, and slot 0 — experiment A, which lacks Y — is an
empty-points placeholder still carrying A's name and time origin. -/
theorem buildPlotsData_spec_witness :
    "Y__None" ∈ (buildPlotsData c7exps).unionKeys
    ∧ ((entryFor (unionMapOf c7exps) "Y__None" c7exps).series .blockSize).length
        = c7exps.length
    ∧ ∃ s, ((entryFor (unionMapOf c7exps) "Y__None" c7exps).series .blockSize).get? 0
          = some s
        ∧ s.name = c7expA.1
        ∧ s.base_ts = c7expA.2.earliest_ts_global
        ∧ (findAssoc "Y__None" c7expA.2.type_called_from_stats = none → s.points = [])
        ∧ (∀ pair, findAssoc "Y__None" c7expA.2.type_called_from_stats = some pair →
            s.points = pairPoints .blockSize pair) := by
  have h := buildPlotsData_spec c7exps
  have hkey : "Y__None" ∈ (buildPlotsData c7exps).unionKeys :=
    (h.1 "Y__None").mpr ⟨c7expB, by simp [c7exps], by decide⟩
  have hpd : (buildPlotsData c7exps).plotsData
      = (buildPlotsData c7exps).unionKeys.map
          (fun k => (k, entryFor (unionMapOf c7exps) k c7exps)) := rfl
  have hmem : ("Y__None", entryFor (unionMapOf c7exps) "Y__None" c7exps)
      ∈ (buildPlotsData c7exps).plotsData := by
    rw [hpd]
    exact List.mem_map_of_mem _ hkey
  obtain ⟨hlen, hall⟩ :=
    h.2.2 "Y__None" (entryFor (unionMapOf c7exps) "Y__None" c7exps) hmem .blockSize
  exact ⟨hkey, hlen, hall 0 c7expA rfl⟩

/-! ## Category visibility (`hasBlocksAfterSizeFilter`, `getVisibleUnionKeys`) -/

/-- Translation of `hasBlocksAfterSizeFilter(item)` (lines 748-756): with
the size filter disabled, visible iff some experiment's `block_size` series
has any point; otherwise visible iff some experiment's series has a point
whose value (the block size) reaches the threshold.  (The JS
`typeof p[1] === "number"` guard always holds here: decoded block-size
values are numbers.) -/
def hasBlocksAfterSizeFilter (minSize : ℚ) (item : PlotEntry) : Bool :=
  if minSize ≤ 0 then item.block_size_series.any (fun s => !s.points.isEmpty)
  else item.block_size_series.any
    (fun s => s.points.any (fun p => decide (minSize ≤ p.v)))

/-- Translation of `getVisibleUnionKeys()` (lines 758-760): the union keys
whose `PLOTS_DATA` entry passes `hasBlocksAfterSizeFilter` (a key without an
entry is dropped, `if (!item) return false`).  This one predicate drives
both the summary table (`rebuildAveragesTable`) and the chart tabs
(`updateVisibleTabs`/`renderTab`). -/
def getVisibleUnionKeys (minSize : ℚ) (unionKeys : List String)
    (plotsData : List (String × PlotEntry)) : List String :=
  unionKeys.filter (fun k =>
    match findAssoc k plotsData with
    | some item => hasBlocksAfterSizeFilter minSize item
    | none => false)

/-- The points of one `block_size` series that survive the size filter
alone (for this series the point value is the block size). -/
def sizeSurvivors (minSize : ℚ) (points : List Pt) : List Pt :=
  if minSize ≤ 0 then points else points.filter (fun p => decide (minSize ≤ p.v))

/-- Counterexample to C1 as frozen.  Category `K` has two experiments: A's
only `block_size` point is 500 bytes, B's is 2000 bytes.  With
`min_block_size_bytes = 1000`, experiment A has zero surviving points, yet
the category is visible (not hidden) in both the tabs and the summary
table, because B's point passes. -/
theorem hasBlocksAfterSizeFilter_counterexample :
    sizeSurvivors 1000 [⟨0, 500, some 1⟩] = []
    ∧ hasBlocksAfterSizeFilter 1000
        ⟨"K", [], [⟨"A", some 0, [⟨0, 500, some 1⟩]⟩, ⟨"B", some 0, [⟨0, 2000, some 2⟩]⟩],
          [], [], [], [], [], []⟩ = true
    ∧ getVisibleUnionKeys 1000 ["K"]
        [("K", ⟨"K", [],
          [⟨"A", some 0, [⟨0, 500, some 1⟩]⟩, ⟨"B", some 0, [⟨0, 2000, some 2⟩]⟩],
          [], [], [], [], [], []⟩)] = ["K"] := by
  refine ⟨?_, ?_, ?_⟩ <;> decide

/-- C1 (amended).  A category is hidden from the summary table and the
chart tabs iff, after the size filter alone (the time window plays no
role), its `block_size` series has zero surviving points in **every**
experiment; equivalently, it is visible iff at least one experiment's
`block_size` series keeps a point.  `getVisibleUnionKeys` — the single
predicate behind both views — keeps exactly the keys whose entry is
visible. -/
theorem hasBlocksAfterSizeFilter_spec (minSize : ℚ) (item : PlotEntry)
    (unionKeys : List String) (plotsData : List (String × PlotEntry)) (k : String) :
    (hasBlocksAfterSizeFilter minSize item = false
      ↔ ∀ s ∈ item.block_size_series, sizeSurvivors minSize s.points = [])
    ∧ (k ∈ getVisibleUnionKeys minSize unionKeys plotsData
      ↔ k ∈ unionKeys ∧ ∃ item2, findAssoc k plotsData = some item2
          ∧ hasBlocksAfterSizeFilter minSize item2 = true) := by
  constructor
  · by_cases hm : minSize ≤ 0
    · simp only [hasBlocksAfterSizeFilter, sizeSurvivors, if_pos hm]
      simp [List.any_eq_false, List.isEmpty_iff]
    · simp only [hasBlocksAfterSizeFilter, sizeSurvivors, if_neg hm]
      simp [List.any_eq_false, List.filter_eq_nil_iff]
  · unfold getVisibleUnionKeys
    rw [List.mem_filter]
    constructor
    · rintro ⟨hk, hpred⟩
      refine ⟨hk, ?_⟩
      cases hfa : findAssoc k plotsData with
      | none => rw [hfa] at hpred; simp at hpred
      | some item2 =>
        rw [hfa] at hpred
        exact ⟨item2, rfl, hpred⟩
    · rintro ⟨hk, item2, hfa, hvis⟩
      refine ⟨hk, ?_⟩
      rw [hfa]
      exact hvis

/-- Witness for `hasBlocksAfterSizeFilter_spec`: a category whose only
point is below the threshold is hidden, and dropped from the visible keys. -/
theorem hasBlocksAfterSizeFilter_spec_witness :
    (hasBlocksAfterSizeFilter 1000
        ⟨"K", [], [⟨"A", some 0, [⟨0, 500, some 1⟩]⟩], [], [], [], [], [], []⟩ = false
      ↔ ∀ s ∈ [(⟨"A", some 0, [⟨0, 500, some 1⟩]⟩ : SeriesObj)],
          sizeSurvivors 1000 s.points = [])
    ∧ ("K" ∈ getVisibleUnionKeys 1000 ["K"]
        [("K", ⟨"K", [], [⟨"A", some 0, [⟨0, 500, some 1⟩]⟩], [], [], [], [], [], []⟩)]
      ↔ "K" ∈ ["K"] ∧ ∃ item2, findAssoc "K"
            [("K", ⟨"K", [], [⟨"A", some 0, [⟨0, 500, some 1⟩]⟩], [], [], [], [], [], []⟩)]
          = some item2 ∧ hasBlocksAfterSizeFilter 1000 item2 = true) :=
  ⟨(hasBlocksAfterSizeFilter_spec 1000
      ⟨"K", [], [⟨"A", some 0, [⟨0, 500, some 1⟩]⟩], [], [], [], [], [], []⟩
      ["K"]
      [("K", ⟨"K", [], [⟨"A", some 0, [⟨0, 500, some 1⟩]⟩], [], [], [], [], [], []⟩)]
      "K").1,
   (hasBlocksAfterSizeFilter_spec 1000
      ⟨"K", [], [⟨"A", some 0, [⟨0, 500, some 1⟩]⟩], [], [], [], [], [], []⟩
      ["K"]
      [("K", ⟨"K", [], [⟨"A", some 0, [⟨0, 500, some 1⟩]⟩], [], [], [], [], [], []⟩)]
      "K").2⟩

/-! ## Best-value highlighting (`rebuildAveragesTable`, lines 1010-1033) -/

/-- One iteration of the `avg_compression_percent` best-value loop body:
`if (v != null && (bestVal === null || v > bestVal)) { bestVal = v; bestIdx = i; }`. -/
def maxStep (st : Option ℚ × Option ℕ) (i : ℕ) (v : Option ℚ) : Option ℚ × Option ℕ :=
  match v with
  | none => st
  | some x =>
    match st.1 with
    | none => (some x, some i)
    | some b => if b < x then (some x, some i) else st

/-- The best-value scan for `avg_compression_percent`: walk the group's
per-experiment values left to right applying `maxStep`. -/
def bestMaxAux : List (Option ℚ) → ℕ → Option ℚ × Option ℕ → Option ℚ × Option ℕ
  | [], _, st => st
  | v :: rest, i, st => bestMaxAux rest (i + 1) (maxStep st i v)

/-- One iteration of the broadcast-time best-value loop body:
`if (v != null && v > 0 && (bestVal === null || v < bestVal)) { bestVal = v; bestIdx = i; }`. -/
def minPosStep (st : Option ℚ × Option ℕ) (i : ℕ) (v : Option ℚ) : Option ℚ × Option ℕ :=
  match v with
  | none => st
  | some x =>
    if 0 < x then
      match st.1 with
      | none => (some x, some i)
      | some b => if x < b then (some x, some i) else st
    else st

/-- The best-value scan for the three broadcast-time metrics: walk the
group's values left to right applying `minPosStep`. -/
def bestMinPosAux : List (Option ℚ) → ℕ → Option ℚ × Option ℕ → Option ℚ × Option ℕ
  | [], _, st => st
  | v :: rest, i, st => bestMinPosAux rest (i + 1) (minPosStep st i v)

/-- `bestIdx` for a metric key over the group's per-experiment values
(lines 1016-1033): maximum of non-null values for the compression percent,
minimum of strictly-positive non-null values for the three broadcast-time
metrics, no highlight otherwise. -/
def bestIndexFor (keyName : String) (groupVals : List (Option ℚ)) : Option ℕ :=
  if keyName = "avg_compression_percent" then (bestMaxAux groupVals 0 (none, none)).2
  else if keyName = "avg_broadcast_time_avg_s" ∨ keyName = "avg_broadcast_time_full_s"
      ∨ keyName = "avg_broadcast_time_66p_s" then (bestMinPosAux groupVals 0 (none, none)).2
  else none

theorem get?_snoc {α : Type} (l : List α) (a : α) (m : ℕ) :
    (l ++ [a]).get? m
      = if m < l.length then l.get? m else if m = l.length then some a else none := by
  rcases lt_trichotomy m l.length with h | h | h
  · rw [if_pos h, List.get?_append h]
  · subst h
    rw [if_neg (lt_irrefl _), if_pos rfl, List.get?_concat_length]
  · rw [if_neg (by omega), if_neg (by omega)]
    apply List.get?_eq_none.mpr
    simp only [List.length_append, List.length_cons, List.length_nil]
    omega

/-- Loop invariant of the maximum scan over the processed prefix. -/
def MaxState (processed : List (Option ℚ)) : Option ℚ × Option ℕ → Prop
  | (none, none) => ∀ v ∈ processed, v = none
  | (some b, some j) =>
      processed.get? j = some (some b)
      ∧ ∀ m u, processed.get? m = some (some u) → u ≤ b
  | _ => False

/-- Loop invariant of the positive-minimum scan over the processed prefix. -/
def MinPosState (processed : List (Option ℚ)) : Option ℚ × Option ℕ → Prop
  | (none, none) => ∀ m u, processed.get? m = some (some u) → ¬ 0 < u
  | (some b, some j) =>
      processed.get? j = some (some b) ∧ 0 < b
      ∧ ∀ m u, processed.get? m = some (some u) → 0 < u → b ≤ u
  | _ => False

theorem maxStep_state {processed : List (Option ℚ)} {st : Option ℚ × Option ℕ}
    (h : MaxState processed st) (v : Option ℚ) :
    MaxState (processed ++ [v]) (maxStep st processed.length v) := by
  obtain ⟨bv, bi⟩ := st
  match v with
  | none =>
    match bv, bi with
    | none, none =>
      intro w hw
      rcases List.mem_append.mp hw with hw | hw
      · exact h w hw
      · simpa using hw
    | some b, some j =>
      obtain ⟨hj, hmax⟩ := h
      refine ⟨?_, ?_⟩
      · rw [get?_snoc]
        have hjlt : j < processed.length := by
          by_contra hge
          rw [List.get?_eq_none.mpr (by omega)] at hj
          cases hj
        rw [if_pos hjlt]
        exact hj
      · intro m u hm
        rw [get?_snoc] at hm
        split at hm
        · exact hmax m u hm
        · split at hm
          · simp at hm
          · cases hm
    | none, some j => exact absurd h (by simp [MaxState])
    | some b, none => exact absurd h (by simp [MaxState])
  | some x =>
    match bv, bi with
    | none, none =>
      refine ⟨?_, ?_⟩
      · rw [List.get?_concat_length]
      · intro m u hm
        rw [get?_snoc] at hm
        split at hm
        · have := h _ (List.get?_mem hm)
          cases this
        · split at hm
          · have hxu : x = u := by simpa using hm
            exact le_of_eq hxu.symm
          · cases hm
    | some b, some j =>
      obtain ⟨hj, hmax⟩ := h
      have hjlt : j < processed.length := by
        by_contra hge
        rw [List.get?_eq_none.mpr (by omega)] at hj
        cases hj
      show MaxState _ (if b < x then (some x, some processed.length) else (some b, some j))
      by_cases hbx : b < x
      · rw [if_pos hbx]
        refine ⟨List.get?_concat_length .., ?_⟩
        intro m u hm
        rw [get?_snoc] at hm
        split at hm
        · exact le_of_lt (lt_of_le_of_lt (hmax m u hm) hbx)
        · split at hm
          · have hxu : x = u := by simpa using hm
            exact le_of_eq hxu.symm
          · cases hm
      · rw [if_neg hbx]
        refine ⟨?_, ?_⟩
        · rw [get?_snoc, if_pos hjlt]
          exact hj
        · intro m u hm
          rw [get?_snoc] at hm
          split at hm
          · exact hmax m u hm
          · split at hm
            · have hxu : x = u := by simpa using hm
              rw [← hxu]
              exact not_lt.mp hbx
            · cases hm
    | none, some j => exact absurd h (by simp [MaxState])
    | some b, none => exact absurd h (by simp [MaxState])

theorem bestMaxAux_invariant :
    ∀ (l processed : List (Option ℚ)) (st : Option ℚ × Option ℕ),
      MaxState processed st →
      MaxState (processed ++ l) (bestMaxAux l processed.length st)
  | [], processed, st, h => by simpa [bestMaxAux] using h
  | v :: tl, processed, st, h => by
    have hstep : MaxState (processed ++ [v]) (maxStep st processed.length v) :=
      maxStep_state h v
    have hlen : (processed ++ [v]).length = processed.length + 1 := by simp
    have happ : processed ++ v :: tl = (processed ++ [v]) ++ tl := by simp
    rw [happ]
    have := bestMaxAux_invariant tl (processed ++ [v]) (maxStep st processed.length v) hstep
    rw [hlen] at this
    simpa [bestMaxAux] using this

theorem minPosStep_state {processed : List (Option ℚ)} {st : Option ℚ × Option ℕ}
    (h : MinPosState processed st) (v : Option ℚ) :
    MinPosState (processed ++ [v]) (minPosStep st processed.length v) := by
  obtain ⟨bv, bi⟩ := st
  have hnone : ∀ {bv0 : Option ℚ} {bi0 : Option ℕ},
      MinPosState processed (bv0, bi0) → v = none ∨ (∃ x, v = some x ∧ ¬ 0 < x) →
      MinPosState (processed ++ [v]) (bv0, bi0) := by
    intro bv0 bi0 h0 hv
    match bv0, bi0 with
    | none, none =>
      intro m u hm hu
      rw [get?_snoc] at hm
      split at hm
      · exact h0 m u hm hu
      · split at hm
        · rcases hv with hv | ⟨x, hvx, hx⟩
          · rw [hv] at hm
            cases hm
          · rw [hvx] at hm
            have hxu : x = u := by simpa using hm
            exact hx (hxu ▸ hu)
        · cases hm
    | some b, some j =>
      obtain ⟨hj, hb, hmin⟩ := h0
      have hjlt : j < processed.length := by
        by_contra hge
        rw [List.get?_eq_none.mpr (by omega)] at hj
        cases hj
      refine ⟨?_, hb, ?_⟩
      · rw [get?_snoc, if_pos hjlt]
        exact hj
      · intro m u hm hu
        rw [get?_snoc] at hm
        split at hm
        · exact hmin m u hm hu
        · split at hm
          · rcases hv with hv | ⟨x, hvx, hx⟩
            · rw [hv] at hm
              cases hm
            · rw [hvx] at hm
              have hxu : x = u := by simpa using hm
              exact absurd (hxu ▸ hu) hx
          · cases hm
    | none, some j => exact absurd h0 (by simp [MinPosState])
    | some b, none => exact absurd h0 (by simp [MinPosState])
  match v with
  | none => exact hnone h (Or.inl rfl)
  | some x =>
    by_cases hx : 0 < x
    · match bv, bi with
      | none, none =>
        have he : minPosStep ((none : Option ℚ), (none : Option ℕ)) processed.length (some x)
            = (some x, some processed.length) := by
          simp [minPosStep, hx]
        rw [he]
        refine ⟨List.get?_concat_length .., hx, ?_⟩
        intro m u hm hu
        rw [get?_snoc] at hm
        split at hm
        · exact absurd hu (h m u hm)
        · split at hm
          · have hxu : x = u := by simpa using hm
            exact le_of_eq hxu
          · cases hm
      | some b, some j =>
        obtain ⟨hj, hb, hmin⟩ := h
        have hjlt : j < processed.length := by
          by_contra hge
          rw [List.get?_eq_none.mpr (by omega)] at hj
          cases hj
        by_cases hxb : x < b
        · have he : minPosStep (some b, some j) processed.length (some x)
              = (some x, some processed.length) := by
            simp [minPosStep, hx, hxb]
          rw [he]
          refine ⟨List.get?_concat_length .., hx, ?_⟩
          intro m u hm hu
          rw [get?_snoc] at hm
          split at hm
          · exact le_of_lt (lt_of_lt_of_le hxb (hmin m u hm hu))
          · split at hm
            · have hxu : x = u := by simpa using hm
              exact le_of_eq hxu
            · cases hm
        · have he : minPosStep (some b, some j) processed.length (some x)
              = (some b, some j) := by
            simp [minPosStep, hx, hxb]
          rw [he]
          refine ⟨?_, hb, ?_⟩
          · rw [get?_snoc, if_pos hjlt]
            exact hj
          · intro m u hm hu
            rw [get?_snoc] at hm
            split at hm
            · exact hmin m u hm hu
            · split at hm
              · have hxu : x = u := by simpa using hm
                rw [← hxu]
                exact not_lt.mp hxb
              · cases hm
      | none, some j => exact absurd h (by simp [MinPosState])
      | some b, none => exact absurd h (by simp [MinPosState])
    · have : minPosStep (bv, bi) processed.length (some x) = (bv, bi) := by
        simp only [minPosStep, if_neg hx]
      rw [this]
      exact hnone h (Or.inr ⟨x, rfl, hx⟩)

theorem bestMinPosAux_invariant :
    ∀ (l processed : List (Option ℚ)) (st : Option ℚ × Option ℕ),
      MinPosState processed st →
      MinPosState (processed ++ l) (bestMinPosAux l processed.length st)
  | [], processed, st, h => by simpa [bestMinPosAux] using h
  | v :: tl, processed, st, h => by
    have hstep : MinPosState (processed ++ [v]) (minPosStep st processed.length v) :=
      minPosStep_state h v
    have hlen : (processed ++ [v]).length = processed.length + 1 := by simp
    have happ : processed ++ v :: tl = (processed ++ [v]) ++ tl := by simp
    rw [happ]
    have := bestMinPosAux_invariant tl (processed ++ [v])
      (minPosStep st processed.length v) hstep
    rw [hlen] at this
    simpa [bestMinPosAux] using this

/-- C8. Best-value highlighting per metric row over a group's per-experiment
summary values: for `avg_compression_percent` the chosen entry is a maximum
among the non-null values, and an entry is chosen whenever some non-null value
exists; for each of the three broadcast-time metrics the chosen entry is
non-null, strictly positive and minimal among the strictly-positive non-null
values (so a 0 entry is never chosen), and an entry is chosen whenever some
strictly-positive non-null value exists; the four remaining metric rows never
mark a best entry. -/
theorem bestIndexFor_spec (vals : List (Option ℚ)) :
    (∀ i, bestIndexFor "avg_compression_percent" vals = some i →
      ∃ v, vals.get? i = some (some v)
        ∧ ∀ m u, vals.get? m = some (some u) → u ≤ v)
    ∧ ((∃ m u, vals.get? m = some (some u)) →
        (bestIndexFor "avg_compression_percent" vals).isSome)
    ∧ (∀ key, key = "avg_broadcast_time_avg_s" ∨ key = "avg_broadcast_time_full_s"
        ∨ key = "avg_broadcast_time_66p_s" →
      (∀ i, bestIndexFor key vals = some i →
        ∃ v, vals.get? i = some (some v) ∧ 0 < v
          ∧ ∀ m u, vals.get? m = some (some u) → 0 < u → v ≤ u)
      ∧ ((∃ m u, vals.get? m = some (some u) ∧ 0 < u) →
          (bestIndexFor key vals).isSome))
    ∧ (∀ key, key ∈ ["num_blocks", "avg_block_size_bytes",
        "avg_compression_time_s", "avg_decompression_time_s"] →
      bestIndexFor key vals = none) := by
  have hmax : MaxState vals (bestMaxAux vals 0 (none, none)) := by
    have h0 : MaxState ([] : List (Option ℚ)) ((none : Option ℚ), (none : Option ℕ)) := by
      intro v hv
      cases hv
    simpa using bestMaxAux_invariant vals [] (none, none) h0
  have hmin : MinPosState vals (bestMinPosAux vals 0 (none, none)) := by
    have h0 : MinPosState ([] : List (Option ℚ)) ((none : Option ℚ), (none : Option ℕ)) := by
      intro m u hm
      simp at hm
    simpa using bestMinPosAux_invariant vals [] (none, none) h0
  have hcmp : bestIndexFor "avg_compression_percent" vals
      = (bestMaxAux vals 0 (none, none)).2 := by
    simp [bestIndexFor]
  have hminspec₁ : ∀ i, (bestMinPosAux vals 0 (none, none)).2 = some i →
      ∃ v, vals.get? i = some (some v) ∧ 0 < v
        ∧ ∀ m u, vals.get? m = some (some u) → 0 < u → v ≤ u := by
    intro i hi
    rcases hst : bestMinPosAux vals 0 (none, none) with ⟨bv, bi⟩
    rw [hst] at hmin hi
    have hbi : bi = some i := hi
    subst hbi
    match bv with
    | none => exact absurd hmin (by simp [MinPosState])
    | some b =>
      obtain ⟨hget, hb, hall⟩ := hmin
      exact ⟨b, hget, hb, hall⟩
  have hminspec₂ : (∃ m u, vals.get? m = some (some u) ∧ 0 < u) →
      ((bestMinPosAux vals 0 (none, none)).2).isSome := by
    rintro ⟨m, u, hm, hu⟩
    rcases hst : bestMinPosAux vals 0 (none, none) with ⟨bv, bi⟩
    rw [hst] at hmin
    match bv, bi with
    | none, none => exact absurd hu (hmin m u hm)
    | some b, some j => simp
    | some b, none => exact absurd hmin (by simp [MinPosState])
    | none, some j => exact absurd hmin (by simp [MinPosState])
  refine ⟨?_, ?_, ?_, ?_⟩
  · intro i hi
    rw [hcmp] at hi
    rcases hst : bestMaxAux vals 0 (none, none) with ⟨bv, bi⟩
    rw [hst] at hmax hi
    have hbi : bi = some i := hi
    subst hbi
    match bv with
    | none => exact absurd hmax (by simp [MaxState])
    | some b =>
      obtain ⟨hget, hall⟩ := hmax
      exact ⟨b, hget, hall⟩
  · rintro ⟨m, u, hm⟩
    rw [hcmp]
    rcases hst : bestMaxAux vals 0 (none, none) with ⟨bv, bi⟩
    rw [hst] at hmax
    match bv, bi with
    | none, none =>
      have := hmax _ (List.get?_mem hm)
      cases this
    | some b, some j => simp
    | some b, none => exact absurd hmax (by simp [MaxState])
    | none, some j => exact absurd hmax (by simp [MaxState])
  · intro key hkey
    have hkeyeq : bestIndexFor key vals = (bestMinPosAux vals 0 (none, none)).2 := by
      rcases hkey with h | h | h <;> subst h <;> simp [bestIndexFor]
    rw [hkeyeq]
    exact ⟨hminspec₁, hminspec₂⟩
  · intro key hk
    fin_cases hk <;> simp [bestIndexFor]

theorem bestIndexFor_spec_witness :
    bestIndexFor "avg_compression_percent" [some 10, some 25, none] = some 1
    ∧ (∃ v, [some (10 : ℚ), some 25, none].get? 1 = some (some v)
        ∧ ∀ m u, [some (10 : ℚ), some 25, none].get? m = some (some u) → u ≤ v)
    ∧ bestIndexFor "avg_broadcast_time_avg_s" [some 0, some 5, some 3] = some 2
    ∧ (∃ v, [some (0 : ℚ), some 5, some 3].get? 2 = some (some v) ∧ 0 < v
        ∧ ∀ m u, [some (0 : ℚ), some 5, some 3].get? m = some (some u) → 0 < u → v ≤ u)
    ∧ bestIndexFor "num_blocks" [some 10, some 25, none] = none :=
  ⟨by decide,
   (bestIndexFor_spec [some 10, some 25, none]).1 1 (by decide),
   by decide,
   ((bestIndexFor_spec [some 0, some 5, some 3]).2.2.1 "avg_broadcast_time_avg_s"
     (Or.inl rfl)).1 2 (by decide),
   (bestIndexFor_spec [some 10, some 25, none]).2.2.2 "num_blocks" (by decide)⟩

end TonBench
